import Mathlib

/-!
Shallow embedding of the `sshing` deployment-script tooling
(`src/docker/parser.rs`, `src/models/docker/container.rs`,
`src/docker/script_parser.rs`, `src/docker/discovery.rs`, and the command
queue of `src/app.rs`), together with proofs about the embedded functions.

Text is modelled as `List Char`; Rust `&str` values enter through
`String.data`.  Machine integers (`u16`, `i32`) are modelled as `Nat`/`Int`
with explicit range checks mirroring the overflow behaviour of `str::parse`.
Timestamps (`chrono::DateTime`) are modelled opaquely as `Nat`.
-/

set_option maxRecDepth 4096

/-- The apostrophe character (written via its code point). -/
def aposC : Char := Char.ofNat 39

/-- The backtick character (written via its code point). -/
def btickC : Char := Char.ofNat 96

/-- ASCII fragment of Rust `char::is_whitespace` / the regex class `\s`. -/
def isWsChar (c : Char) : Bool :=
  c = ' ' || c = '\t' || c = '\n' || c = '\r' || c = Char.ofNat 11 || c = Char.ofNat 12

/-- Rust `str::trim_start`. -/
def trimStartL (cs : List Char) : List Char := cs.dropWhile isWsChar

/-- Rust `str::trim_end`. -/
def trimEndL (cs : List Char) : List Char := (cs.reverse.dropWhile isWsChar).reverse

/-- Rust `str::trim`. -/
def trimL (cs : List Char) : List Char := trimEndL (trimStartL cs)

/-- Rust `str::contains(pat)` for a literal pattern: does `pat` occur as a
contiguous substring? -/
def occursIn (pat : List Char) : List Char → Bool
  | [] => pat.isEmpty
  | c :: cs => pat.isPrefixOf (c :: cs) || occursIn pat cs

/-- Rust `str::ends_with(c)` for a single character. -/
def endsWithChar (c : Char) (cs : List Char) : Bool :=
  match cs.getLast? with
  | some d => d = c
  | none => false

/-- Rust `str::trim_end_matches(c)`: repeatedly strip the trailing char `c`. -/
def trimEndMatchesChar (c : Char) (cs : List Char) : List Char :=
  (cs.reverse.dropWhile (fun d => d = c)).reverse

/-- Rust `str::trim_matches(c)`: strip `c` from both ends. -/
def trimMatchesChar (c : Char) (cs : List Char) : List Char :=
  ((cs.dropWhile (fun d => d = c)).reverse.dropWhile (fun d => d = c)).reverse

/-- Split at every occurrence of the character `sep` (Rust `str::split(sep)`);
always returns at least one (possibly empty) segment. -/
def splitOnCharL (sep : Char) : List Char → List (List Char)
  | [] => [[]]
  | c :: cs =>
    if c = sep then [] :: splitOnCharL sep cs
    else
      match splitOnCharL sep cs with
      | [] => [[c]]
      | s :: ss => (c :: s) :: ss

/-- Split at every occurrence of the two-character separator `", "`
(Rust `str::split(", ")`). -/
def splitCommaSpace : List Char → List (List Char)
  | [] => [[]]
  | [c] => [[c]]
  | c :: d :: cs =>
    if c = ',' ∧ d = ' ' then [] :: splitCommaSpace cs
    else
      match splitCommaSpace (d :: cs) with
      | [] => [[c]]
      | s :: ss => (c :: s) :: ss

/-- Drop the final segment of a split when it is empty (the behaviour of Rust
`str::split_terminator`, used by `str::lines`). -/
def dropLastEmpty (ls : List (List Char)) : List (List Char) :=
  match ls.getLast? with
  | some [] => ls.dropLast
  | _ => ls

/-- Strip a single trailing carriage return (the `\r\n` normalisation done by
Rust `str::lines`). -/
def stripCR (cs : List Char) : List Char :=
  match cs.getLast? with
  | some c => if c = '\r' then cs.dropLast else cs
  | none => cs

/-- Rust `str::lines`: split at `'\n'`, drop the optional final empty line,
strip one trailing `'\r'` from each line. -/
def rustLines (cs : List Char) : List (List Char) :=
  (dropLastEmpty (splitOnCharL ('\n') cs)).map stripCR

/-- Rust `Vec::join("\n")` on a list of lines. -/
def joinNl : List (List Char) → List Char
  | [] => []
  | [l] => l
  | l :: ls => l ++ '\n' :: joinNl ls

/-- Numeric value of an ASCII digit. -/
def digitVal (c : Char) : Option Nat :=
  if '0' ≤ c ∧ c ≤ '9' then some (c.toNat - 48) else none

/-- Value of a nonempty all-digit string. -/
def parseDigits : List Char → Option Nat
  | [] => none
  | cs => go cs 0
where
  go : List Char → Nat → Option Nat
    | [], acc => some acc
    | c :: cs, acc =>
      match digitVal c with
      | some d => go cs (acc * 10 + d)
      | none => none

/-- Rust `str::parse::<u16>()`: optional `+`, digits, range check. -/
def parse_u16 (cs : List Char) : Option Nat :=
  let body := match cs with
    | '+' :: rest => rest
    | _ => cs
  match parseDigits body with
  | some v => if v ≤ 65535 then some v else none
  | none => none

/-- Rust `str::parse::<i32>()`: optional sign, digits, range check. -/
def parse_i32 (cs : List Char) : Option Int :=
  match cs with
  | '-' :: rest =>
    match parseDigits rest with
    | some v => if v ≤ 2147483648 then some (-(v : Int)) else none
    | none => none
  | '+' :: rest =>
    match parseDigits rest with
    | some v => if v ≤ 2147483647 then some (v : Int) else none
    | none => none
  | _ =>
    match parseDigits cs with
    | some v => if v ≤ 2147483647 then some (v : Int) else none
    | none => none

/-! ## `src/models/docker/container.rs` -/

/-- `ContainerStatus` from `src/models/docker/container.rs`. -/
inductive ContainerStatus where
  | Running : ContainerStatus
  | Stopped : ContainerStatus
  | Paused : ContainerStatus
  | Restarting : ContainerStatus
  | Exited : Int → ContainerStatus
  | Dead : ContainerStatus
  | Unknown : List Char → ContainerStatus
deriving DecidableEq, Repr

/-- `ContainerStatus::from_docker_status` (`container.rs` lines 16-41):
lowercase, then prefix/substring classification; the exit code is read from
`split('(').nth(1)` truncated at the first `')'`. -/
def from_docker_status (status : List Char) : ContainerStatus :=
  let status_lower := status.map Char.toLower
  if ("up".data).isPrefixOf status_lower then ContainerStatus.Running
  else if ("exited".data).isPrefixOf status_lower then
    match (splitOnCharL ('(') status_lower).get? 1 with
    | some seg =>
      match parse_i32 ((splitOnCharL (')') seg).headI) with
      | some code => ContainerStatus.Exited code
      | none => ContainerStatus.Stopped
    | none => ContainerStatus.Stopped
  else if occursIn ("paused".data) status_lower then ContainerStatus.Paused
  else if occursIn ("restarting".data) status_lower then ContainerStatus.Restarting
  else if occursIn ("dead".data) status_lower then ContainerStatus.Dead
  else ContainerStatus.Unknown status

/-- `PortMapping` from `src/models/docker/container.rs`. -/
structure PortMapping where
  host_port : Nat
  container_port : Nat
  protocol : List Char
deriving DecidableEq, Repr

/-- `Container` from `src/models/docker/container.rs` (the `created`
timestamp is modelled opaquely). -/
structure Container where
  id : List Char
  name : List Char
  image : List Char
  status : ContainerStatus
  ports : List PortMapping
  created : Option Nat
  server_name : List Char
  script_path : Option (List Char)
  networks : List (List Char)
deriving DecidableEq, Repr

/-! ## `src/docker/parser.rs` -/

/-- `parse_port_protocol` (`parser.rs` lines 90-95). -/
def parse_port_protocol (s : List Char) : Option (Nat × List Char) :=
  let parts := splitOnCharL ('/') s
  match parse_u16 parts.headI with
  | some port => some (port, (parts.get? 1).getD ("tcp".data))
  | none => none

/-- Split at the first occurrence of `"->"` (Rust `str::find("->")` plus the
two slices around it), or `none` when absent. -/
def splitArrow : List Char → Option (List Char × List Char)
  | [] => none
  | c :: cs =>
    if ("->".data).isPrefixOf (c :: cs) then some ([], cs.drop 1)
    else
      match splitArrow cs with
      | some (l, r) => some (c :: l, r)
      | none => none

theorem splitOnCharL_ne_nil (sep : Char) (cs : List Char) : splitOnCharL sep cs ≠ [] := by
  cases cs with
  | nil => simp [splitOnCharL]
  | cons c cs =>
    simp only [splitOnCharL]
    split
    · simp
    · cases h : splitOnCharL sep cs <;> simp

/-- `parse_single_port` (`parser.rs` lines 60-88). -/
def parse_single_port (port_str : List Char) : Option PortMapping :=
  match splitArrow port_str with
  | some (left, right) =>
    match parse_u16 ((splitOnCharL (':') left).getLast (splitOnCharL_ne_nil _ _)) with
    | some hp =>
      match parse_port_protocol right with
      | some (cp, proto) => some ⟨hp, cp, proto⟩
      | none => none
    | none => none
  | none =>
    match parse_port_protocol port_str with
    | some (cp, proto) => some ⟨cp, cp, proto⟩
    | none => none

/-- `parse_ports` (`parser.rs` lines 43-58): split on `", "`, parse each
entry, drop entries whose `(host_port, container_port)` pair was already
seen. -/
def parse_ports (ports_str : List Char) : List PortMapping :=
  (splitCommaSpace ports_str).foldl
    (fun acc e =>
      match parse_single_port e with
      | some m =>
        if acc.any (fun p => p.host_port = m.host_port ∧ p.container_port = m.container_port)
        then acc
        else acc ++ [m]
      | none => acc)
    []

/-- `parse_container_line` (`parser.rs` lines 12-39). -/
def parse_container_line (line : List Char) (server_name : List Char) : Option Container :=
  let parts := splitOnCharL ('|') line
  if parts.length < 4 then none
  else some
    { id := parts.getD 0 []
      name := parts.getD 1 []
      image := parts.getD 2 []
      status := from_docker_status (parts.getD 3 [])
      ports := if parts.length > 4 then parse_ports (parts.getD 4 []) else []
      created := none
      server_name := server_name
      script_path := none
      networks := [] }

/-- `parse_docker_ps` (`parser.rs` lines 4-10). -/
def parse_docker_ps (output : List Char) (server_name : List Char) : List Container :=
  ((rustLines output).filter (fun l => !l.isEmpty)).filterMap
    (fun l => parse_container_line l server_name)

/-! ## Regex scanning machinery

Each regex of `script_parser.rs` is embedded as a deterministic
position-wise matcher (greedy quantifier runs are maximal character runs,
which coincides with the backtracking semantics here because every run is
followed by a character its class excludes).  `findAt` returns the leftmost
match, `findAllAux` iterates non-overlapping matches like `captures_iter`.
-/

/-- Leftmost match of a position-wise matcher: returns the text before the
match and the matcher's result. -/
def findAt {α : Type} (m : List Char → Option α) : List Char → Option (List Char × α)
  | [] =>
    match m [] with
    | some a => some ([], a)
    | none => none
  | c :: cs =>
    match m (c :: cs) with
    | some a => some ([], a)
    | none =>
      match findAt m cs with
      | some (pre, a) => some (c :: pre, a)
      | none => none

/-- All non-overlapping matches, left to right (`captures_iter`); the
matcher returns a capture plus the rest of the text after the match. -/
def findAllAux {α : Type} (m : List Char → Option (α × List Char)) :
    Nat → List Char → List α
  | 0, _ => []
  | fuel + 1, cs =>
    match findAt m cs with
    | some (_, (a, rest)) => a :: findAllAux m fuel rest
    | none => []

/-- All non-overlapping matches with the default fuel. -/
def findAll {α : Type} (m : List Char → Option (α × List Char)) (cs : List Char) : List α :=
  findAllAux m (cs.length + 1) cs

/-- First character class of the regex ident `[A-Za-z_][A-Za-z0-9_]*`. -/
def isIdentStart (c : Char) : Bool :=
  ('A' ≤ c ∧ c ≤ 'Z') || ('a' ≤ c ∧ c ≤ 'z') || c = '_'

/-- Continuation class of the regex ident. -/
def isIdentChar (c : Char) : Bool :=
  isIdentStart c || ('0' ≤ c ∧ c ≤ '9')

/-- Read a maximal `[A-Za-z_][A-Za-z0-9_]*` run. -/
def takeKey : List Char → Option (List Char × List Char)
  | [] => none
  | c :: cs =>
    if isIdentStart c then some (c :: cs.takeWhile isIdentChar, cs.dropWhile isIdentChar)
    else none

/-! ## `src/models/docker/script.rs` -/

/-- `EnvVar` from `src/models/docker/script.rs`. -/
structure EnvVar where
  key : List Char
  value : List Char
  is_secret : Bool
deriving DecidableEq, Repr

/-- `EnvVar::detect_secret`: case-insensitive substring match against the
fixed secret markers. -/
def detect_secret (key : List Char) : Bool :=
  let key_upper := key.map Char.toUpper
  occursIn ("PASSWORD".data) key_upper || occursIn ("SECRET".data) key_upper ||
    occursIn ("TOKEN".data) key_upper || occursIn ("KEY".data) key_upper ||
    occursIn ("CREDENTIAL".data) key_upper || occursIn ("PRIVATE".data) key_upper

/-- `EnvVar::new`. -/
def EnvVar.new (key value : List Char) : EnvVar :=
  ⟨key, value, detect_secret key⟩

/-- `VolumeMount` from `src/models/docker/script.rs`. -/
structure VolumeMount where
  host_path : List Char
  container_path : List Char
  read_only : Bool
deriving DecidableEq, Repr

/-- `DeploymentScript` from `src/models/docker/script.rs` (the
`last_modified` timestamp is modelled opaquely). -/
structure DeploymentScript where
  path : List Char
  client_name : List Char
  container_name : List Char
  repo : List Char
  env_vars : List EnvVar
  volumes : List VolumeMount
  network : Option (List Char)
  ports : List PortMapping
  restart_policy : Option (List Char)
  raw_content : List Char
  last_modified : Option Nat
deriving DecidableEq, Repr

/-! ## `src/docker/script_parser.rs`: extraction -/

/-- Matcher for `-e\s+KEY="([^"]*)"` at a position (pattern 1 of
`extract_env_vars`). -/
def matchEnvDQAt : List Char → Option ((List Char × List Char) × List Char)
  | '-' :: 'e' :: cs =>
    let (ws, cs1) := cs.span isWsChar
    if ws = [] then none
    else
      match takeKey cs1 with
      | some (key, '=' :: '"' :: cs2) =>
        let value := cs2.takeWhile (fun c => c ≠ '"')
        match cs2.dropWhile (fun c => c ≠ '"') with
        | '"' :: rest => some ((key, value), rest)
        | _ => none
      | _ => none
  | _ => none

/-- Matcher for `-e\s+KEY='([^']*)'` at a position (pattern 2 of
`extract_env_vars`). -/
def matchEnvSQAt : List Char → Option ((List Char × List Char) × List Char)
  | '-' :: 'e' :: cs =>
    let (ws, cs1) := cs.span isWsChar
    if ws = [] then none
    else
      match takeKey cs1 with
      | some (key, '=' :: cs2) =>
        match cs2 with
        | q :: cs3 =>
          if q = aposC then
            let value := cs3.takeWhile (fun c => c ≠ aposC)
            match cs3.dropWhile (fun c => c ≠ aposC) with
            | q' :: rest => if q' = aposC then some ((key, value), rest) else none
            | _ => none
          else none
        | _ => none
      | _ => none
  | _ => none

/-- Matcher for `-e\s*KEY=(\S+)` at a position (pattern 3 of
`extract_env_vars`; the whitespace may be empty). -/
def matchEnvBareAt : List Char → Option ((List Char × List Char) × List Char)
  | '-' :: 'e' :: cs =>
    let cs1 := cs.dropWhile isWsChar
    match takeKey cs1 with
    | some (key, '=' :: cs2) =>
      let value := cs2.takeWhile (fun c => !isWsChar c)
      if value = [] then none
      else some ((key, value), cs2.dropWhile (fun c => !isWsChar c))
    | _ => none
  | _ => none

/-- Matcher for `-eKEY=(\S+)` at a position (pattern 4 of
`extract_env_vars`; no whitespace after `-e`). -/
def matchEnvAttachedAt : List Char → Option ((List Char × List Char) × List Char)
  | '-' :: 'e' :: cs =>
    match takeKey cs with
    | some (key, '=' :: cs2) =>
      let value := cs2.takeWhile (fun c => !isWsChar c)
      if value = [] then none
      else some ((key, value), cs2.dropWhile (fun c => !isWsChar c))
    | _ => none
  | _ => none

/-- The `(key, value)` captures of the four `extract_env_vars` patterns, in
the pattern order of the source. -/
def envMatches (content : List Char) : List (List Char × List Char) :=
  findAll matchEnvDQAt content ++ findAll matchEnvSQAt content ++
    findAll matchEnvBareAt content ++ findAll matchEnvAttachedAt content

/-- `extract_env_vars` (`script_parser.rs` lines 63-90): iterate the four
patterns in order, skipping keys already collected. -/
def extract_env_vars (content : List Char) : List EnvVar :=
  (envMatches content).foldl
    (fun env_vars kv =>
      if env_vars.any (fun e => e.key = kv.1) then env_vars
      else env_vars ++ [EnvVar.new kv.1 kv.2])
    []

/-- Character class `[^:\s]` of the volume regex. -/
def isVolChar (c : Char) : Bool := c ≠ ':' && !isWsChar c

/-- Matcher for `-v\s+([^:\s]+):([^:\s]+)(:ro)?` at a position
(`extract_volumes`). -/
def matchVolAt : List Char → Option (VolumeMount × List Char)
  | '-' :: 'v' :: cs =>
    let (ws, cs1) := cs.span isWsChar
    if ws = [] then none
    else
      let host := cs1.takeWhile isVolChar
      if host = [] then none
      else
        match cs1.dropWhile isVolChar with
        | ':' :: cs2 =>
          let cont := cs2.takeWhile isVolChar
          if cont = [] then none
          else
            let cs3 := cs2.dropWhile isVolChar
            if (":ro".data).isPrefixOf cs3 then
              some (⟨host, cont, true⟩, cs3.drop 3)
            else some (⟨host, cont, false⟩, cs3)
        | _ => none
  | _ => none

/-- `extract_volumes` (`script_parser.rs` lines 93-110). -/
def extract_volumes (content : List Char) : List VolumeMount :=
  findAll matchVolAt content

/-- ASCII digit class `\d`. -/
def isDigitChar (c : Char) : Bool := '0' ≤ c && c ≤ '9'

/-- Word class `\w` (ASCII fragment). -/
def isWordChar (c : Char) : Bool := isIdentChar c

/-- Matcher for `-p\s+(\d+):(\d+)(/\w+)?` at a position (`extract_ports`);
captures the two digit strings and the optional protocol. -/
def matchPortAt : List Char → Option ((List Char × List Char × Option (List Char)) × List Char)
  | '-' :: 'p' :: cs =>
    let (ws, cs1) := cs.span isWsChar
    if ws = [] then none
    else
      let d1 := cs1.takeWhile isDigitChar
      if d1 = [] then none
      else
        match cs1.dropWhile isDigitChar with
        | ':' :: cs2 =>
          let d2 := cs2.takeWhile isDigitChar
          if d2 = [] then none
          else
            let cs3 := cs2.dropWhile isDigitChar
            match cs3 with
            | '/' :: cs4 =>
              let proto := cs4.takeWhile isWordChar
              if proto = [] then some ((d1, d2, none), cs3)
              else some ((d1, d2, some proto), cs4.dropWhile isWordChar)
            | _ => some ((d1, d2, none), cs3)
        | _ => none
  | _ => none

/-- `extract_ports` of `script_parser.rs` (lines 113-139): matches with
unparseable port numbers are skipped. -/
def extract_ports (content : List Char) : List PortMapping :=
  (findAll matchPortAt content).foldl
    (fun ports m =>
      match parse_u16 m.1, parse_u16 m.2.1 with
      | some hp, some cp =>
        let protocol := (m.2.2.map (fun p => p)).getD ("tcp".data)
        ports ++ [⟨hp, cp, protocol⟩]
      | _, _ => ports)
    []

/-- Matcher for a literal token followed by `=(\S+)` (used for `--net=`,
`--network=`, `--restart=`). -/
def matchLitEqAt (lit : List Char) (cs : List Char) : Option (List Char) :=
  if lit.isPrefixOf cs then
    let cs1 := cs.drop lit.length
    let v := cs1.takeWhile (fun c => !isWsChar c)
    if v = [] then none else some v
  else none

/-- Matcher for a literal token followed by `\s+(\S+)` (used for `--net`,
`--network`, `--restart` with a space). -/
def matchLitWsAt (lit : List Char) (cs : List Char) : Option (List Char) :=
  if lit.isPrefixOf cs then
    let cs1 := cs.drop lit.length
    let (ws, cs2) := cs1.span isWsChar
    if ws = [] then none
    else
      let v := cs2.takeWhile (fun c => !isWsChar c)
      if v = [] then none else some v
  else none

/-- `extract_network` (`script_parser.rs` lines 142-160): four patterns in
priority order, first pattern with a match wins. -/
def extract_network (content : List Char) : Option (List Char) :=
  match findAt (matchLitEqAt ("--net=".data)) content with
  | some (_, v) => some v
  | none =>
    match findAt (matchLitEqAt ("--network=".data)) content with
    | some (_, v) => some v
    | none =>
      match findAt (matchLitWsAt ("--net".data)) content with
      | some (_, v) => some v
      | none =>
        match findAt (matchLitWsAt ("--network".data)) content with
        | some (_, v) => some v
        | none => none

/-- `extract_restart_policy` (`script_parser.rs` lines 163-179). -/
def extract_restart_policy (content : List Char) : Option (List Char) :=
  match findAt (matchLitEqAt ("--restart=".data)) content with
  | some (_, v) => some v
  | none =>
    match findAt (matchLitWsAt ("--restart".data)) content with
    | some (_, v) => some v
    | none => none

/-- Matcher for `VAR='([^']*)'` at a position (`extract_variable`
pattern 1). -/
def matchVarSQAt (var_name : List Char) (cs : List Char) : Option (List Char) :=
  if (var_name ++ ['=', aposC]).isPrefixOf cs then
    let cs1 := cs.drop (var_name.length + 2)
    let v := cs1.takeWhile (fun c => c ≠ aposC)
    match cs1.dropWhile (fun c => c ≠ aposC) with
    | _ :: _ => some v
    | _ => none
  else none

/-- Matcher for `VAR="([^"]*)"` at a position (`extract_variable`
pattern 2). -/
def matchVarDQAt (var_name : List Char) (cs : List Char) : Option (List Char) :=
  if (var_name ++ ['=', '"']).isPrefixOf cs then
    let cs1 := cs.drop (var_name.length + 2)
    let v := cs1.takeWhile (fun c => c ≠ '"')
    match cs1.dropWhile (fun c => c ≠ '"') with
    | _ :: _ => some v
    | _ => none
  else none

/-- Matcher for `VAR=(\S+)` at a position (`extract_variable` pattern 3). -/
def matchVarBareAt (var_name : List Char) (cs : List Char) : Option (List Char) :=
  if (var_name ++ ['=']).isPrefixOf cs then
    let cs1 := cs.drop (var_name.length + 1)
    let v := cs1.takeWhile (fun c => !isWsChar c)
    if v = [] then none else some v
  else none

/-- `extract_variable` (`script_parser.rs` lines 43-60): single-quoted,
double-quoted, then bare form, first pattern with a match wins. -/
def extract_variable (content : List Char) (var_name : List Char) : Option (List Char) :=
  match findAt (matchVarSQAt var_name) content with
  | some (_, v) => some v
  | none =>
    match findAt (matchVarDQAt var_name) content with
    | some (_, v) => some v
    | none =>
      match findAt (matchVarBareAt var_name) content with
      | some (_, v) => some v
      | none => none

/-- Value class `[^\s\\]` of the `--name` regex. -/
def isFlagValChar (c : Char) : Bool := !isWsChar c && c ≠ '\\'

/-- Matcher for `--name=([^\s\\]+)` at a position. -/
def matchNameEqAt (cs : List Char) : Option (List Char) :=
  if ("--name=".data).isPrefixOf cs then
    let cs1 := cs.drop 7
    let v := cs1.takeWhile isFlagValChar
    if v = [] then none else some v
  else none

/-- Matcher for `--name\s+([^\s\\]+)` at a position. -/
def matchNameWsAt (cs : List Char) : Option (List Char) :=
  if ("--name".data).isPrefixOf cs then
    let cs1 := cs.drop 6
    let (ws, cs2) := cs1.span isWsChar
    if ws = [] then none
    else
      let v := cs2.takeWhile isFlagValChar
      if v = [] then none else some v
  else none

/-- `extract_container_name_flag` (`script_parser.rs` lines 182-202): for
each pattern in order, take the first match, strip surrounding quote
characters, and accept it unless it is a `$`-variable reference. -/
def extract_container_name_flag (content : List Char) : Option (List Char) :=
  let fromMatch : Option (List Char) → Option (List Char) := fun m =>
    match m with
    | some v =>
      let name := trimMatchesChar aposC (trimMatchesChar ('"') v)
      match name with
      | '$' :: _ => none
      | _ => some name
    | none => none
  match fromMatch ((findAt matchNameEqAt content).map Prod.snd) with
  | some n => some n
  | none =>
    match fromMatch ((findAt matchNameWsAt content).map Prod.snd) with
    | some n => some n
    | none => none

/-- Image-name class of the image regex: letters, digits, dot, underscore,
slash, dash. -/
def isImgChar (c : Char) : Bool :=
  ('a' ≤ c ∧ c ≤ 'z') || ('A' ≤ c ∧ c ≤ 'Z') || ('0' ≤ c ∧ c ≤ '9') ||
    c = '.' || c = '_' || c = '/' || c = '-'

/-- Tag class of the image regex: letters, digits, dot, underscore, dash. -/
def isTagChar (c : Char) : Bool :=
  ('a' ≤ c ∧ c ≤ 'z') || ('A' ≤ c ∧ c ≤ 'Z') || ('0' ≤ c ∧ c ≤ '9') ||
    c = '.' || c = '_' || c = '-'

/-- The `\s*(?:\n|$)` tail of the image regex: only whitespace up to a
newline or the end of the text. -/
def imgEndCheck (cs : List Char) : Bool :=
  let (ws, rest) := cs.span isWsChar
  rest.isEmpty || ws.contains '\n'

/-- The `\s+(IMAGE(?::TAG)?)\s*(?:\n|$)` tail of the image regex at a
position: maximal whitespace run, maximal image run, a greedy optional
`:TAG`, then `imgEndCheck`. -/
def imgTailMatch (cs : List Char) : Option (List Char) :=
  let (ws, cs1) := cs.span isWsChar
  if ws = [] then none
  else
    let img := cs1.takeWhile isImgChar
    if img = [] then none
    else
      let cs2 := cs1.dropWhile isImgChar
      match cs2 with
      | ':' :: cs3 =>
        let tag := cs3.takeWhile isTagChar
        if tag ≠ [] ∧ imgEndCheck (cs3.dropWhile isTagChar) then
          some (img ++ ':' :: tag)
        else if imgEndCheck cs2 then some img
        else none
      | _ => if imgEndCheck cs2 then some img else none

/-- The lazy `[^\n]*?` search of the image regex: try the image tail at the
shortest offset first, never crossing a newline. -/
def imgLazySearch : List Char → Option (List Char)
  | [] => imgTailMatch []
  | c :: rest =>
    match imgTailMatch (c :: rest) with
    | some img => some img
    | none => if c = '\n' then none else imgLazySearch rest

/-- Matcher for the `extract_docker_image` regex
`(?:docker\s+(?:run|create)[^\n]*?)\s+(IMG(?::TAG)?)\s*(?:\n|$)` at a
position. -/
def matchImageAt (cs : List Char) : Option (List Char) :=
  if ("docker".data).isPrefixOf cs then
    let cs1 := cs.drop 6
    let (ws, cs2) := cs1.span isWsChar
    if ws = [] then none
    else if ("run".data).isPrefixOf cs2 then imgLazySearch (cs2.drop 3)
    else if ("create".data).isPrefixOf cs2 then imgLazySearch (cs2.drop 6)
    else none
  else none

/-- `extract_docker_image` (`script_parser.rs` lines 205-227): first match
of the image regex, rejecting flag-like and `$`-variable values. -/
def extract_docker_image (content : List Char) : Option (List Char) :=
  match findAt matchImageAt content with
  | some (_, image) =>
    match image with
    | '-' :: _ => none
    | '$' :: _ => none
    | _ => some image
  | none => none

/-- `parse_script` (`script_parser.rs` lines 6-40). -/
def parse_script (content : List Char) (path : List Char) (client_name : List Char) :
    DeploymentScript :=
  { path := path
    client_name := client_name
    container_name :=
      match extract_variable content ("NAME".data) with
      | some name => name
      | none =>
        match extract_container_name_flag content with
        | some name => name
        | none => []
    repo :=
      match extract_variable content ("REPO".data) with
      | some repo => repo
      | none =>
        match extract_docker_image content with
        | some image => image
        | none => []
    env_vars := extract_env_vars content
    volumes := extract_volumes content
    network := extract_network content
    ports := extract_ports content
    restart_policy := extract_restart_policy content
    raw_content := content
    last_modified := none }

/-! ## `src/docker/discovery.rs` -/

/-- `create_script_from_content` (`discovery.rs` lines 52-70): require the
literal `docker` marker, parse, and require a nonempty container name. -/
def create_script_from_content (path : List Char) (content : List Char)
    (project_name : List Char) : Option DeploymentScript :=
  if !occursIn ("docker".data) content then none
  else
    let script := parse_script content path project_name
    if script.container_name.isEmpty then none
    else some script

/-! ## `src/docker/script_parser.rs`: generation and patching -/

/-- Decimal digits of a natural number (for Rust `format!` of a port). -/
def natChars (n : Nat) : List Char := Nat.toDigits 10 n

/-- `generate_script` (`script_parser.rs` lines 230-281). -/
def generate_script (script : DeploymentScript) : List Char :=
  let header : List (List Char) :=
    [("#!/usr/bin/env bash".data), [], ("# Configuration".data),
     ("NAME=".data) ++ aposC :: (script.container_name ++ [aposC]),
     ("REPO=\"".data) ++ script.repo ++ ['"'], [],
     ("docker pull $REPO".data), ("docker stop $NAME".data), ("docker rm $NAME".data), []]
  let create_parts : List (List Char) :=
    [("docker create".data)] ++
      (match script.network with
       | some network => [("  --net=".data) ++ network]
       | none => []) ++
      [("  --name $NAME".data), ("  --restart=unless-stopped".data)] ++
      script.ports.map (fun p => ("  -p ".data) ++ natChars p.host_port ++ ':' :: natChars p.container_port) ++
      script.volumes.map (fun v =>
        ("  -v ".data) ++ v.host_path ++ ':' :: (v.container_path ++ (if v.read_only then (":ro".data) else []))) ++
      script.env_vars.map (fun e => ("  -e ".data) ++ e.key ++ '=' :: '"' :: (e.value ++ ['"'])) ++
      [("  $REPO".data)]
  let create_cmd := (create_parts.intersperse (" \\\n".data)).flatten
  joinNl (header ++ [create_cmd, [], ("docker start $NAME".data)])

/-- Rust `str::replace('\\', "\\\\")`. -/
def replaceBackslash : List Char → List Char
  | [] => []
  | c :: cs => if c = '\\' then '\\' :: '\\' :: replaceBackslash cs else c :: replaceBackslash cs

/-- Rust `str::replace('"', "\\\"")`. -/
def replaceQuote : List Char → List Char
  | [] => []
  | c :: cs => if c = '"' then '\\' :: '"' :: replaceQuote cs else c :: replaceQuote cs

/-- Rust `str::replace('$', "\\$")`. -/
def replaceDollar : List Char → List Char
  | [] => []
  | c :: cs => if c = '$' then '\\' :: '$' :: replaceDollar cs else c :: replaceDollar cs

/-- `escape_shell_value` (`script_parser.rs` lines 488-508). -/
def escape_shell_value (value : List Char) : List Char :=
  if value.contains ' ' || value.contains '$' || value.contains '\\' ||
      value.contains '"' || value.contains aposC || value.contains '!' ||
      value.contains btickC || value.isEmpty then
    '"' :: (replaceQuote (replaceBackslash value) ++ ['"'])
  else
    '"' :: (value ++ ['"'])

/-- Matcher at a position for the six `update_env_var` patterns
(`script_parser.rs` lines 316-323): `spaced` selects the `-e\s+KEY=` forms
(`\s+` nonempty) versus the attached `-eKEY=` forms, and `form` selects the
double-quoted (0), single-quoted (1) or bare `[^\s\\]+` (2) value shape.
Returns the group-1 text and the rest after the whole match. -/
def matchUpdAt (key : List Char) (spaced : Bool) (form : Nat) (cs : List Char) :
    Option (List Char × List Char) :=
  match cs with
  | '-' :: 'e' :: cs1 =>
    let ws := if spaced then cs1.takeWhile isWsChar else []
    if spaced ∧ ws.isEmpty then none
    else
      let cs2 := if spaced then cs1.dropWhile isWsChar else cs1
      if (key ++ ['=']).isPrefixOf cs2 then
        let g1 := '-' :: 'e' :: (ws ++ key ++ ['='])
        let cs3 := cs2.drop (key.length + 1)
        match form with
        | 0 =>
          match cs3 with
          | '"' :: cs4 =>
            match cs4.dropWhile (fun c => c ≠ '"') with
            | _ :: rest => some (g1, rest)
            | [] => none
          | _ => none
        | 1 =>
          match cs3 with
          | q :: cs4 =>
            if q = aposC then
              match cs4.dropWhile (fun c => c ≠ aposC) with
              | _ :: rest => some (g1, rest)
              | [] => none
            else none
          | [] => none
        | _ =>
          let v := cs3.takeWhile isFlagValChar
          if v.isEmpty then none else some (g1, cs3.drop v.length)
      else none
  | _ => none

/-- `update_env_var` (`script_parser.rs` lines 314-337): try the six
patterns in order; replace the first match of the first matching pattern by
group 1 followed by the double-quoted escaped value (the replacement text is
inserted literally). -/
def update_env_var (content key new_value : List Char) : List Char :=
  let escaped_value := replaceDollar (replaceBackslash new_value)
  let subst := fun (pre : List Char) (m : List Char × List Char) =>
    pre ++ m.1 ++ '"' :: (escaped_value ++ '"' :: m.2)
  match findAt (matchUpdAt key true 0) content with
  | some (pre, m) => subst pre m
  | none =>
    match findAt (matchUpdAt key true 1) content with
    | some (pre, m) => subst pre m
    | none =>
      match findAt (matchUpdAt key true 2) content with
      | some (pre, m) => subst pre m
      | none =>
        match findAt (matchUpdAt key false 0) content with
        | some (pre, m) => subst pre m
        | none =>
          match findAt (matchUpdAt key false 1) content with
          | some (pre, m) => subst pre m
          | none =>
            match findAt (matchUpdAt key false 2) content with
            | some (pre, m) => subst pre m
            | none => content

/-- Matcher at a position for the removal pattern `-e\s*KEY=`
(`remove_env_var`). -/
def matchRemoveAt (key : List Char) (cs : List Char) : Option Unit :=
  match cs with
  | '-' :: 'e' :: cs1 =>
    if (key ++ ['=']).isPrefixOf (cs1.dropWhile isWsChar) then some () else none
  | _ => none

/-- Does the removal pattern `-e\s*KEY=` match anywhere in the line? -/
def lineHasEnvKey (key : List Char) (line : List Char) : Bool :=
  (findAt (matchRemoveAt key) line).isSome

/-- The `has_more_after` lookahead of `remove_env_var` (lines 360-363). -/
def hasMoreAfter (rest : List (List Char)) : Bool :=
  match rest with
  | next :: _ =>
    !(trimL next).isEmpty &&
      (("-".data).isPrefixOf (trimL next) || ("$".data).isPrefixOf (trimL next) ||
        ("\"".data).isPrefixOf (trimL next))
  | [] => false

/-- The line loop of `remove_env_var` (`script_parser.rs` lines 345-377). -/
def removeLoop (key : List Char) : List (List Char) → List (List Char) → List (List Char)
  | [], acc => acc
  | line :: rest, acc =>
    if lineHasEnvKey key (trimL line) then
      let acc' :=
        match acc.getLast? with
        | some last_line =>
          if endsWithChar '\\' (trimEndL last_line) ∧ !hasMoreAfter rest then
            acc.dropLast ++ [trimEndL (trimEndMatchesChar '\\' (trimEndL last_line))]
          else acc
        | none => acc
      removeLoop key rest acc'
    else removeLoop key rest (acc ++ [line])

/-- `remove_env_var` (`script_parser.rs` lines 340-380). -/
def remove_env_var (content key : List Char) : List Char :=
  joinNl (removeLoop key (rustLines content) [])

/-- Line condition for `last_env_line_idx` in `add_env_var` (line 400). -/
def isEnvLine (line : List Char) : Bool :=
  occursIn ("-e ".data) (trimL line) || ("-e".data).isPrefixOf (trimL line)

/-- Line condition for `last_flag_line_idx` in `add_env_var`
(lines 403-406). -/
def isFlagLine (line : List Char) : Bool :=
  ("-p ".data).isPrefixOf (trimL line) || ("-p".data).isPrefixOf (trimL line) ||
    ("-v ".data).isPrefixOf (trimL line) || ("-v".data).isPrefixOf (trimL line) ||
    ("--".data).isPrefixOf (trimL line)

/-- Line condition for `docker_cmd_end_idx` in `add_env_var`
(lines 410-414): a `$REPO`-like line continued from the previous line. -/
def isDockerCmdEnd (lines : List (List Char)) (i : Nat) : Bool :=
  let t := trimL (lines.getD i [])
  (("$".data).isPrefixOf t || occursIn ("$REPO".data) t) &&
    !t.contains '=' && decide (0 < i) &&
    endsWithChar '\\' (trimEndL (lines.getD (i - 1) []))

/-- Index of the last line (if any) satisfying a condition. -/
def lastIdxWhere (p : Nat → Bool) (n : Nat) : Option Nat :=
  ((List.range n).filter p).getLast?

/-- The main insertion loop of `add_env_var` (lines 441-466); returns the
accumulated lines and the `inserted` flag. -/
def addLoop (insert_after : Option Nat) (new_line : List Char) :
    List (List Char) → Nat → Bool → List (List Char) → List (List Char) × Bool
  | [], _, inserted, acc => (acc, inserted)
  | line :: rest, i, inserted, acc =>
    match insert_after with
    | some insert_idx =>
      if i = insert_idx ∧ !inserted then
        let current_line :=
          if endsWithChar '\\' (trimEndL line) then line
          else trimEndL line ++ (" \\".data)
        let needs_continuation :=
          match rest with
          | next :: _ => !(trimL next).isEmpty && !(("#".data).isPrefixOf (trimL next))
          | [] => false
        let acc' := acc ++ [current_line] ++
          [if needs_continuation then new_line ++ (" \\".data) else new_line]
        addLoop insert_after new_line rest (i + 1) true acc'
      else addLoop insert_after new_line rest (i + 1) inserted (acc ++ [line])
    | none => addLoop insert_after new_line rest (i + 1) inserted (acc ++ [line])

/-- The `docker start` fallback of `add_env_var` (lines 469-482); inserts
the fixed-indent line before the first `docker start` line. -/
def addFallback (fallback_line : List Char) :
    List (List Char) → Bool → List (List Char) → List (List Char) × Bool
  | [], inserted, acc => (acc, inserted)
  | line :: rest, inserted, acc =>
    if ("docker start".data).isPrefixOf (trimL line) ∧ !inserted then
      addFallback fallback_line rest true (acc ++ [fallback_line, line])
    else addFallback fallback_line rest inserted (acc ++ [line])

/-- `add_env_var` (`script_parser.rs` lines 383-485). -/
def add_env_var (content key value : List Char) : List Char :=
  let lines := rustLines content
  let n := lines.length
  let last_env_line_idx := lastIdxWhere (fun i => isEnvLine (lines.getD i [])) n
  let last_flag_line_idx := lastIdxWhere (fun i => isFlagLine (lines.getD i [])) n
  let docker_cmd_end_idx := lastIdxWhere (fun i => isDockerCmdEnd lines i) n
  let insert_after :=
    (last_env_line_idx.or (last_flag_line_idx.or (docker_cmd_end_idx.map (fun i => i - 1))))
  let indent :=
    match last_env_line_idx with
    | some idx => (lines.getD idx []).takeWhile isWsChar
    | none =>
      match last_flag_line_idx with
      | some idx => (lines.getD idx []).takeWhile isWsChar
      | none => ("  ".data)
  let new_line := indent ++ ("-e ".data) ++ key ++ '=' :: escape_shell_value value
  let (result_lines, inserted) := addLoop insert_after new_line lines 0 false []
  if !inserted then
    let fallback_line := ("  -e ".data) ++ key ++ '=' :: (escape_shell_value value ++ (" \\".data))
    let (final_lines, fallback_done) := addFallback fallback_line result_lines false []
    if fallback_done then joinNl final_lines else joinNl result_lines
  else joinNl result_lines

/-! ## `src/app.rs`: the docker command queue -/

/-- `SshCommandType` from `src/app.rs` (lines 14-32). -/
inductive SshCommandType where
  | DockerPs : SshCommandType
  | ListProjects : SshCommandType
  | FindScripts : List Char → List Char → SshCommandType
  | ReadScript : List Char → List Char → SshCommandType
  | DockerOperation : List Char → SshCommandType
  | ViewLogs : SshCommandType
  | ContainerStats : Nat → SshCommandType
  | ContainerTop : Nat → SshCommandType
  | ContainerInspect : Nat → SshCommandType
  | InspectContainerEnv : Nat → SshCommandType
  | ViewScriptContent : List Char → Nat → SshCommandType
  | ListDirectory : List Char → SshCommandType
  | ReadScriptForContainer : List Char → Nat → SshCommandType
  | WriteScript : List Char → SshCommandType
  | RunScript : SshCommandType
  | RsyncListDirectory : List Char → SshCommandType
deriving DecidableEq, Repr

/-- `PendingSshCommand` from `src/app.rs` (lines 34-38); the `Host` value is
modelled by its name. -/
structure PendingSshCommand where
  host : List Char
  command : List Char
  command_type : SshCommandType
deriving DecidableEq, Repr

/-- The command-queue fragment of the `App` state (`src/app.rs` lines
100-105): the single in-flight slot `pending_ssh_command` and the FIFO
`pending_docker_commands`. -/
structure OrchState where
  pending_ssh_command : Option PendingSshCommand
  pending_docker_commands : List PendingSshCommand
deriving DecidableEq, Repr

/-- `App::process_next_docker_command` (`src/app.rs` lines 1196-1201):
promote the front of the FIFO into the in-flight slot, but only when the
slot is empty. -/
def process_next_docker_command (s : OrchState) : OrchState :=
  if s.pending_ssh_command.isNone ∧ !s.pending_docker_commands.isEmpty then
    { pending_ssh_command := s.pending_docker_commands.head?
      pending_docker_commands := s.pending_docker_commands.tail }
  else s

/-- Events acting on the command queue.  `enqueue c` is a
`pending_docker_commands.push(c)` performed by a result handler or a UI
action (`src/app.rs` lines 914, 945, 978, 999).  `result follow` is the
completion of the in-flight command: its `handle_ssh_output` arm pushes the
follow-up commands `follow` and then calls `process_next_docker_command`
(`src/app.rs` lines 957-1194). -/
inductive OrchEvent where
  | enqueue : PendingSshCommand → OrchEvent
  | result : List PendingSshCommand → OrchEvent

/-- Modelled from the spec: the external executor that runs the in-flight
command and feeds its output to `handle_ssh_output` is not part of the
sources (`handle_ssh_output` has no caller there); per the spec there is one
in-flight command per host, `on_result` is called exactly once per completed
command, and after every result the next queued command is promoted.  The
step function therefore takes the in-flight command out of the slot, lets
its handler append its follow-up commands to the FIFO (as the
`handle_ssh_output` arms do), and runs `process_next_docker_command`; a
`result` event with an empty slot is impossible and leaves the state
unchanged.  The second component records the command completed by the step,
in completion order. -/
def orch_step (s : OrchState) : OrchEvent → OrchState × List PendingSshCommand
  | OrchEvent.enqueue c =>
    ({ s with pending_docker_commands := s.pending_docker_commands ++ [c] }, [])
  | OrchEvent.result follow =>
    match s.pending_ssh_command with
    | some c =>
      (process_next_docker_command
        { pending_ssh_command := none
          pending_docker_commands := s.pending_docker_commands ++ follow }, [c])
    | none => (s, [])

/-- Run a sequence of queue events, collecting the completed commands in
order. -/
def orch_run (s : OrchState) : List OrchEvent → OrchState × List PendingSshCommand
  | [] => (s, [])
  | e :: es =>
    let (s1, d1) := orch_step s e
    let (s2, d2) := orch_run s1 es
    (s2, d1 ++ d2)

/-- All commands held by a queue state: the in-flight slot followed by the
FIFO. -/
def orchCmds (s : OrchState) : List PendingSshCommand :=
  s.pending_ssh_command.toList ++ s.pending_docker_commands

/-- The commands enqueued while running a sequence of events (follow-up
commands of a `result` event count only when a command was actually in
flight). -/
def enqueuedDuring (s : OrchState) : List OrchEvent → List PendingSshCommand
  | [] => []
  | e :: es =>
    (match e, s.pending_ssh_command with
     | OrchEvent.enqueue c, _ => [c]
     | OrchEvent.result follow, some _ => follow
     | OrchEvent.result _, none => []) ++ enqueuedDuring (orch_step s e).1 es

/-! ## Supporting lemmas -/

theorem splitOnCharL_headq (sep : Char) (cs : List Char) :
    (splitOnCharL sep cs).head? = some (cs.takeWhile (fun d => d ≠ sep)) := by
  induction cs with
  | nil => simp [splitOnCharL, List.takeWhile]
  | cons c cs ih =>
    simp only [splitOnCharL]
    by_cases hc : c = sep
    · simp [hc, List.takeWhile]
    · rcases h : splitOnCharL sep cs with _ | ⟨s, ss⟩
      · exact absurd h (splitOnCharL_ne_nil sep cs)
      · rw [h] at ih
        simp only [List.head?] at ih
        simp only [if_neg hc, List.takeWhile, hc, decide_not, decide_eq_true_eq]
        simp only [List.head?, Option.some.injEq] at ih ⊢
        simp [ih, hc]

theorem splitOnCharL_get1 (sep : Char) (cs : List Char) :
    (splitOnCharL sep cs).get? 1 =
      match cs.dropWhile (fun d => d ≠ sep) with
      | _ :: rest => some (rest.takeWhile (fun d => d ≠ sep))
      | [] => none := by
  induction cs with
  | nil => simp [splitOnCharL]
  | cons c cs ih =>
    simp only [splitOnCharL]
    by_cases hc : c = sep
    · subst hc
      simp only [if_pos rfl, List.dropWhile, decide_not, decide_eq_true_eq, not_true_eq_false]
      have hhead := splitOnCharL_headq c cs
      rcases h : splitOnCharL c cs with _ | ⟨s, ss⟩
      · exact absurd h (splitOnCharL_ne_nil c cs)
      · rw [h] at hhead
        simp only [List.head?, Option.some.injEq] at hhead
        simp [hhead]
    · rcases h : splitOnCharL sep cs with _ | ⟨s, ss⟩
      · exact absurd h (splitOnCharL_ne_nil sep cs)
      · rw [h] at ih
        simp only [if_neg hc, h, List.dropWhile]
        simpa [hc] using ih

theorem takeWhile_takeWhile_aux (p q : Char → Bool) : ∀ l : List Char,
    (l.takeWhile p).takeWhile q = l.takeWhile (fun a => p a && q a) := by
  intro l
  induction l with
  | nil => rfl
  | cons c cs ih =>
    by_cases hp : p c
    · by_cases hq : q c
      · simp [List.takeWhile, hp, hq, ih]
      · simp [List.takeWhile, hp, hq]
    · simp [List.takeWhile, hp]

/-- The claim's exit-code rule, stated directly on the text: the characters
after the first `'('`, truncated at the next `'('` or `')'`, parsed as an
`i32`. -/
def exitCodeOf (lower : List Char) : Option Int :=
  match lower.dropWhile (fun c => c ≠ '(') with
  | _ :: rest => parse_i32 (rest.takeWhile (fun c => !(c = '(' ∨ c = ')')))
  | [] => none

/-- The claim's notion of "contains a parenthesized numeric code": an
occurrence of `'('`, a nonempty digit run, `')'`. -/
def matchParenIntAt : List Char → Option Unit
  | '(' :: cs =>
    let ds := cs.takeWhile isDigitChar
    if !ds.isEmpty ∧ (cs.drop ds.length).head? = some ')' then some () else none
  | _ => none

/-- Does the text contain a parenthesized numeric code anywhere? -/
def hasParenIntCode (s : List Char) : Bool :=
  (findAt matchParenIntAt s).isSome

/-- C7: the classification of docker status strings, with the exit-code rule
as the code implements it: the text after the first `'('`, truncated at the
next `'('` or `')'`, must parse as a 32-bit integer. -/
theorem C7_status_classification (status : List Char) :
    from_docker_status status =
      (let lower := status.map Char.toLower
       if ("up".data).isPrefixOf lower then ContainerStatus.Running
       else if ("exited".data).isPrefixOf lower then
         match exitCodeOf lower with
         | some code => ContainerStatus.Exited code
         | none => ContainerStatus.Stopped
       else if occursIn ("paused".data) lower then ContainerStatus.Paused
       else if occursIn ("restarting".data) lower then ContainerStatus.Restarting
       else if occursIn ("dead".data) lower then ContainerStatus.Dead
       else ContainerStatus.Unknown status) := by
  simp only [from_docker_status, exitCodeOf]
  rw [splitOnCharL_get1]
  rcases h : (status.map Char.toLower).dropWhile (fun d => d ≠ '(') with _ | ⟨c, rest⟩
  · rfl
  · simp only []
    have hq := splitOnCharL_headq (')') (rest.takeWhile (fun d => d ≠ '('))
    rcases hs : splitOnCharL (')') (rest.takeWhile (fun d => d ≠ '(')) with _ | ⟨s, ss⟩
    · exact absurd hs (splitOnCharL_ne_nil _ _)
    · rw [hs] at hq
      simp only [List.head?, Option.some.injEq] at hq
      simp only [List.headI, hq, takeWhile_takeWhile_aux]
      have hpred : (fun a : Char => (decide (a ≠ '(') && decide (a ≠ ')'))) =
          (fun c : Char => !(c = '(' ∨ c = ')')) := by
        funext a
        by_cases h1 : a = '(' <;> by_cases h2 : a = ')' <;> simp [h1, h2]
      rw [hpred]

/-- C7 counterexample: `"exited (abc) (5)"` contains the parenthesized
numeric code `(5)`, yet the code classifies it as `Stopped` because only the
first parenthesized group is consulted. -/
theorem C7_status_counterexample :
    hasParenIntCode (("exited (abc) (5)").data) = true ∧
    from_docker_status (("exited (abc) (5)").data) = ContainerStatus.Stopped := by
  constructor
  · rfl
  · rfl

/-- C10: every container produced by `parse_docker_ps` has no creation
time, no script path, no networks, and the supplied server name; lines with
fewer than four pipe-separated fields yield no container; a line with
exactly four fields yields an empty port list. -/
theorem C10_docker_ps_fields (output server_name : List Char) :
    (∀ c ∈ parse_docker_ps output server_name,
        c.created = none ∧ c.script_path = none ∧ c.networks = [] ∧
          c.server_name = server_name) ∧
    (∀ line, (splitOnCharL ('|') line).length < 4 →
        parse_container_line line server_name = none) ∧
    (∀ line c, (splitOnCharL ('|') line).length = 4 →
        parse_container_line line server_name = some c → c.ports = []) := by
  refine ⟨?_, ?_, ?_⟩
  · intro c hc
    simp only [parse_docker_ps, List.mem_filterMap] at hc
    obtain ⟨line, _, hline⟩ := hc
    simp only [parse_container_line] at hline
    split at hline
    · exact absurd hline (by simp)
    · injection hline with h
      subst h
      exact ⟨rfl, rfl, rfl, rfl⟩
  · intro line h
    simp [parse_container_line, h]
  · intro line c hlen hline
    simp only [parse_container_line] at hline
    rw [if_neg (by omega)] at hline
    injection hline with h
    subst h
    simp [hlen]

/-- Closed instance of `C10_docker_ps_fields` at a concrete `docker ps`
output. -/
theorem C10_docker_ps_witness :
    ((Container.mk (("a1").data) (("web").data) (("img").data)
        ContainerStatus.Running [] none (("srv").data) none []).created = none ∧
      (Container.mk (("a1").data) (("web").data) (("img").data)
        ContainerStatus.Running [] none (("srv").data) none []).script_path = none ∧
      (Container.mk (("a1").data) (("web").data) (("img").data)
        ContainerStatus.Running [] none (("srv").data) none []).networks = [] ∧
      (Container.mk (("a1").data) (("web").data) (("img").data)
        ContainerStatus.Running [] none (("srv").data) none []).server_name = ("srv").data) ∧
    parse_container_line (("a|b").data) (("srv").data) = none ∧
    (Container.mk (("a1").data) (("web").data) (("img").data)
        ContainerStatus.Running [] none (("srv").data) none []).ports = [] :=
  ⟨(C10_docker_ps_fields (("a1|web|img|Up").data) (("srv").data)).1 _ (by decide),
   (C10_docker_ps_fields (("a1|web|img|Up").data) (("srv").data)).2.1 (("a|b").data) (by decide),
   (C10_docker_ps_fields (("a1|web|img|Up").data) (("srv").data)).2.2 (("a1|web|img|Up").data) _
     (by decide) (by decide)⟩

theorem parse_ports_foldl_pairwise (entries : List (List Char)) :
    ∀ acc : List PortMapping,
      acc.Pairwise
        (fun p q => ¬(p.host_port = q.host_port ∧ p.container_port = q.container_port)) →
      (entries.foldl
        (fun acc e =>
          match parse_single_port e with
          | some m =>
            if acc.any (fun p => p.host_port = m.host_port ∧ p.container_port = m.container_port)
            then acc
            else acc ++ [m]
          | none => acc)
        acc).Pairwise
        (fun p q => ¬(p.host_port = q.host_port ∧ p.container_port = q.container_port)) := by
  induction entries with
  | nil => intro acc h; exact h
  | cons e entries ih =>
    intro acc h
    simp only [List.foldl_cons]
    apply ih
    rcases hm : parse_single_port e with _ | m
    · simpa [hm] using h
    · simp only [hm]
      by_cases hany :
          (acc.any (fun p =>
            p.host_port = m.host_port ∧ p.container_port = m.container_port)) = true
      · rw [if_pos hany]; exact h
      · rw [if_neg hany]
        rw [List.pairwise_append]
        refine ⟨h, List.pairwise_singleton _ _, ?_⟩
        intro p hp q hq
        simp only [List.mem_singleton] at hq
        subst hq
        simp only [List.any_eq_true, decide_eq_true_eq, not_exists] at hany
        push_neg at hany
        intro hcon
        exact hany p hp hcon.1 hcon.2

/-- First-match-wins deduplication of port mappings by
`(host_port, container_port)`: keep the head (with its protocol), drop every
later mapping with the same pair. -/
def firstWinsPorts : List PortMapping → List PortMapping
  | [] => []
  | m :: rest =>
    m :: firstWinsPorts (rest.filter (fun p =>
      ¬(p.host_port = m.host_port ∧ p.container_port = m.container_port)))
termination_by l => l.length
decreasing_by
  simp only [List.length_cons]
  exact Nat.lt_succ_of_le (List.length_filter_le _ _)

theorem parse_ports_foldl_filterMap :
    ∀ (entries : List (List Char)) (acc : List PortMapping),
      entries.foldl
        (fun acc e =>
          match parse_single_port e with
          | some m =>
            if acc.any (fun p => p.host_port = m.host_port ∧ p.container_port = m.container_port)
            then acc
            else acc ++ [m]
          | none => acc) acc =
      (entries.filterMap parse_single_port).foldl
        (fun acc m =>
          if acc.any (fun p => p.host_port = m.host_port ∧ p.container_port = m.container_port)
          then acc
          else acc ++ [m]) acc := by
  intro entries
  induction entries with
  | nil => intro acc; rfl
  | cons e rest ih =>
    intro acc
    simp only [List.foldl_cons, List.filterMap_cons]
    rcases hm : parse_single_port e with _ | m
    · simp only [hm]
      exact ih acc
    · simp only [hm, List.foldl_cons]
      exact ih _

theorem ports_foldl_eq_firstWinsPorts :
    ∀ (ms : List PortMapping) (acc : List PortMapping),
      ms.foldl
        (fun acc m =>
          if acc.any (fun p => p.host_port = m.host_port ∧ p.container_port = m.container_port)
          then acc
          else acc ++ [m]) acc =
      acc ++ firstWinsPorts (ms.filter (fun m =>
        !acc.any (fun p =>
          p.host_port = m.host_port ∧ p.container_port = m.container_port))) := by
  intro ms
  induction ms with
  | nil => intro acc; simp [firstWinsPorts]
  | cons m rest ih =>
    intro acc
    simp only [List.foldl_cons, List.filter_cons]
    by_cases hA : (acc.any (fun p =>
        p.host_port = m.host_port ∧ p.container_port = m.container_port)) = true
    · rw [if_pos hA]
      simp only [hA, Bool.not_true, Bool.false_eq_true, if_neg, ite_false]
      exact ih acc
    · rw [if_neg hA]
      rw [ih (acc ++ [m])]
      simp only [Bool.not_eq_true] at hA
      simp only [hA, Bool.not_false, if_true, firstWinsPorts]
      rw [List.append_assoc]
      simp only [List.cons_append, List.nil_append]
      congr 2
      congr 1
      rw [List.filter_filter]
      apply List.filter_congr
      intro m' _
      simp only [List.any_append, List.any_cons, List.any_nil, Bool.or_false, Bool.not_or]
      by_cases h1 : m'.host_port = m.host_port ∧ m'.container_port = m.container_port
      · simp [h1.1, h1.2, hA]
      · have h2 : ¬(m.host_port = m'.host_port ∧ m.container_port = m'.container_port) := by
          intro h
          exact h1 ⟨h.1.symm, h.2.symm⟩
        simp [h1, h2]

/-- C8: the port mappings parsed from a docker ps ports string are the
first-match-wins deduplication by `(host_port, container_port)` of the
parsed entries in entry order — a later mapping with the same pair as an
earlier one is dropped, the earlier one (with its protocol) is kept — so no
two result mappings share a pair; and a parsed entry takes its host port
from the last colon-delimited token of the left side of `->` (entries
without `->` map a port to itself); entries whose port tokens fail to parse
yield nothing. -/
theorem C8_ports (ports_str : List Char) :
    parse_ports ports_str =
      firstWinsPorts ((splitCommaSpace ports_str).filterMap parse_single_port) ∧
    (parse_ports ports_str).Pairwise
      (fun p q => ¬(p.host_port = q.host_port ∧ p.container_port = q.container_port)) ∧
    (∀ entry m, parse_single_port entry = some m →
      (∀ left right, splitArrow entry = some (left, right) →
        parse_u16 ((splitOnCharL (':') left).getLast (splitOnCharL_ne_nil _ _)) =
            some m.host_port ∧
          ∃ proto, parse_port_protocol right = some (m.container_port, proto) ∧
            m.protocol = proto) ∧
      (splitArrow entry = none → m.host_port = m.container_port)) := by
  refine ⟨?_, ?_, ?_⟩
  · rw [parse_ports, parse_ports_foldl_filterMap, ports_foldl_eq_firstWinsPorts]
    simp
  · exact parse_ports_foldl_pairwise (splitCommaSpace ports_str) [] List.Pairwise.nil
  · intro entry m hm
    constructor
    · intro left right harrow
      simp only [parse_single_port, harrow] at hm
      rcases hu : parse_u16 ((splitOnCharL (':') left).getLast (splitOnCharL_ne_nil _ _)) with
        _ | hp
      · rw [hu] at hm; exact absurd hm (by simp)
      · rw [hu] at hm
        rcases hpp : parse_port_protocol right with _ | ⟨cp, proto⟩
        · rw [hpp] at hm; exact absurd hm (by simp)
        · rw [hpp] at hm
          injection hm with h
          subst h
          exact ⟨rfl, proto, rfl, rfl⟩
    · intro harrow
      simp only [parse_single_port, harrow] at hm
      rcases hpp : parse_port_protocol entry with _ | ⟨cp, proto⟩
      · rw [hpp] at hm; exact absurd hm (by simp)
      · rw [hpp] at hm
        injection hm with h
        subst h
        rfl

/-- C8 counterexample: the single entry `"abc->80/tcp"` contains `->` but
yields no mapping at all, because its host side fails the `u16` parse. -/
theorem C8_ports_counterexample :
    occursIn (("->").data) (("abc->80/tcp").data) = true ∧
    parse_ports (("abc->80/tcp").data) = [] := by
  exact ⟨rfl, rfl⟩

/-- Closed instance of `C8_ports` at concrete entries: the earlier `tcp`
mapping survives and the later `udp` duplicate of the same pair is
dropped. -/
theorem C8_ports_witness :
    parse_ports (("0.0.0.0:8080->80/tcp, :::8080->80/udp").data) =
      [PortMapping.mk 8080 80 (("tcp").data)] ∧
    (parse_u16 ((splitOnCharL (':')
        (("0.0.0.0:8080").data)).getLast (splitOnCharL_ne_nil _ _)) =
      some (PortMapping.mk 8080 80 (("tcp").data)).host_port) ∧
    (PortMapping.mk 80 80 (("tcp").data)).host_port =
      (PortMapping.mk 80 80 (("tcp").data)).container_port := by
  refine ⟨?_, ?_, ?_⟩
  · refine ((C8_ports (("0.0.0.0:8080->80/tcp, :::8080->80/udp").data)).1).trans ?_
    rw [show (splitCommaSpace (("0.0.0.0:8080->80/tcp, :::8080->80/udp").data)).filterMap
        parse_single_port =
      [PortMapping.mk 8080 80 (("tcp").data), PortMapping.mk 8080 80 (("udp").data)] from
      by decide]
    simp [firstWinsPorts, List.filter]
  · exact (((C8_ports (("0.0.0.0:8080->80/tcp").data)).2.2 (("0.0.0.0:8080->80/tcp").data)
      (PortMapping.mk 8080 80 (("tcp").data)) (by decide)).1 (("0.0.0.0:8080").data)
      (("80/tcp").data) (by decide)).1
  · exact ((C8_ports (("80/tcp").data)).2.2 (("80/tcp").data)
      (PortMapping.mk 80 80 (("tcp").data)) (by decide)).2 (by decide)

/-- C5: `create_script_from_content` yields a script exactly when the
content contains the literal `docker` marker and `parse_script` resolves a
nonempty container name; otherwise it yields `none` (no error channel
exists). -/
theorem C5_script_acceptance (path content project_name : List Char) :
    (create_script_from_content path content project_name).isSome =
      (occursIn (("docker").data) content &&
        !(parse_script content path project_name).container_name.isEmpty) := by
  simp only [create_script_from_content]
  by_cases hd : occursIn (("docker").data) content
  · by_cases hn : (parse_script content path project_name).container_name.isEmpty
    · simp [hd, hn]
    · simp [hd, hn]
  · simp [hd]

/-- First-match-wins deduplication by key, in the given match order: keep
the head, drop every later pair with the same key. -/
def firstWins : List (List Char × List Char) → List EnvVar
  | [] => []
  | kv :: rest =>
    EnvVar.new kv.1 kv.2 :: firstWins (rest.filter (fun kv' => kv'.1 ≠ kv.1))
termination_by l => l.length
decreasing_by
  simp only [List.length_cons]
  exact Nat.lt_succ_of_le (List.length_filter_le _ _)

theorem extract_foldl_eq_firstWins :
    ∀ (ms : List (List Char × List Char)) (acc : List EnvVar),
      ms.foldl
        (fun env_vars kv =>
          if env_vars.any (fun e => e.key = kv.1) then env_vars
          else env_vars ++ [EnvVar.new kv.1 kv.2])
        acc =
      acc ++ firstWins (ms.filter (fun kv => !acc.any (fun e => e.key = kv.1))) := by
  intro ms
  induction ms with
  | nil => intro acc; simp [firstWins]
  | cons kv rest ih =>
    intro acc
    simp only [List.foldl_cons, List.filter_cons]
    by_cases hA : (acc.any (fun e => e.key = kv.1)) = true
    · rw [if_pos hA]
      simp only [hA, Bool.not_true, Bool.false_eq_true, if_neg, ite_false]
      exact ih acc
    · rw [if_neg hA]
      rw [ih (acc ++ [EnvVar.new kv.1 kv.2])]
      simp only [Bool.not_eq_true] at hA
      simp only [hA, Bool.not_false, if_true, firstWins]
      rw [List.append_assoc]
      simp only [List.cons_append, List.nil_append]
      congr 2
      congr 1
      rw [List.filter_filter]
      apply List.filter_congr
      intro kv' _
      simp only [List.any_append, List.any_cons, List.any_nil, Bool.or_false,
        Bool.not_or, EnvVar.new]
      by_cases h1 : kv'.1 = kv.1
      · simp [h1, hA]
      · have h2 : ¬ kv.1 = kv'.1 := fun h => h1 h.symm
        simp [h1, h2]

theorem mem_firstWins : ∀ (n : Nat) (ms : List (List Char × List Char)), ms.length ≤ n →
    ∀ e ∈ firstWins ms, ∃ kv, kv ∈ ms ∧ e = EnvVar.new kv.1 kv.2 := by
  intro n
  induction n with
  | zero =>
    intro ms hlen e he
    rw [List.length_eq_zero.mp (Nat.le_zero.mp hlen)] at he
    simp [firstWins] at he
  | succ n ih =>
    intro ms hlen e he
    match ms with
    | [] => simp [firstWins] at he
    | kv :: rest =>
      rw [firstWins] at he
      rcases List.mem_cons.mp he with h | h
      · exact ⟨kv, List.mem_cons_self _ _, h⟩
      · have hlen' : (rest.filter (fun kv' => kv'.1 ≠ kv.1)).length ≤ n := by
          have := List.length_filter_le (fun kv' => decide (kv'.1 ≠ kv.1)) rest
          simp only [List.length_cons] at hlen
          omega
        obtain ⟨kv', hkv', he'⟩ := ih _ hlen' e h
        exact ⟨kv', List.mem_cons_of_mem _ (List.mem_of_mem_filter hkv'), he'⟩

theorem firstWins_pairwise : ∀ (n : Nat) (ms : List (List Char × List Char)), ms.length ≤ n →
    (firstWins ms).Pairwise (fun a b => a.key ≠ b.key) := by
  intro n
  induction n with
  | zero =>
    intro ms hlen
    rw [List.length_eq_zero.mp (Nat.le_zero.mp hlen)]
    simp [firstWins]
  | succ n ih =>
    intro ms hlen
    match ms with
    | [] => simp [firstWins]
    | kv :: rest =>
      rw [firstWins]
      have hlen' : (rest.filter (fun kv' => kv'.1 ≠ kv.1)).length ≤ n := by
        have := List.length_filter_le (fun kv' => decide (kv'.1 ≠ kv.1)) rest
        simp only [List.length_cons] at hlen
        omega
      refine List.Pairwise.cons ?_ (ih _ hlen')
      intro b hb
      obtain ⟨kv', hkv', hb'⟩ := mem_firstWins n _ hlen' b hb
      have : kv'.1 ≠ kv.1 := by
        have := List.of_mem_filter hkv'
        simpa using this
      subst hb'
      simp only [EnvVar.new]
      exact fun h => this h.symm

/-- C2: the extracted env vars are the first-match-wins deduplication of the
matches of the four patterns, taken pattern by pattern (all double-quoted
matches in textual order, then single-quoted, then the two bare forms) — not
in global first-seen textual order — and the extracted keys are pairwise
distinct. -/
theorem C2_env_var_order (content : List Char) :
    extract_env_vars content = firstWins (envMatches content) ∧
    (extract_env_vars content).Pairwise (fun a b => a.key ≠ b.key) := by
  have h := extract_foldl_eq_firstWins (envMatches content) []
  simp only [List.any_nil, Bool.not_false, List.filter_true, List.nil_append] at h
  rw [extract_env_vars]
  constructor
  · exact h
  · rw [h]
    exact firstWins_pairwise (envMatches content).length _ (Nat.le_refl _)

/-- C2 counterexample: in `-e A=1 -e K=first -e K="second"` the textual
first-seen order is `A` then `K` with `K`'s first value `first`, but the
code returns `K` (value `second`, from the later double-quoted occurrence)
before `A`. -/
theorem C2_env_var_order_counterexample :
    extract_env_vars (("-e A=1 -e K=first -e K=\"second\"").data) =
      [EnvVar.new (("K").data) (("second").data),
       EnvVar.new (("A").data) (("1").data)] ∧
    extract_env_vars (("-e A=1 -e K=first -e K=\"second\"").data) ≠
      [EnvVar.new (("A").data) (("1").data),
       EnvVar.new (("K").data) (("first").data)] := by
  constructor
  · rfl
  · decide

theorem orchCmds_process_next (l : List PendingSshCommand) :
    orchCmds (process_next_docker_command (OrchState.mk none l)) = l := by
  cases l with
  | nil => rfl
  | cons c rest => rfl

theorem orch_step_cmds (s : OrchState) (e : OrchEvent) :
    (orch_step s e).2 ++ orchCmds (orch_step s e).1 =
      orchCmds s ++
        (match e, s.pending_ssh_command with
         | OrchEvent.enqueue c, _ => [c]
         | OrchEvent.result follow, some _ => follow
         | OrchEvent.result _, none => []) := by
  cases e with
  | enqueue c =>
    cases s with
    | mk inflight queue => simp [orch_step, orchCmds]
  | result follow =>
    cases s with
    | mk inflight queue =>
      cases inflight with
      | none => simp [orch_step, orchCmds]
      | some c =>
        simp only [orch_step]
        rw [orchCmds_process_next]
        simp [orchCmds]

/-- C6: promotion into the in-flight slot happens only when the slot is
empty, always takes the front of the FIFO, and therefore over any sequence
of enqueue/completion events the completed commands followed by the still
pending ones equal the commands of the initial state followed by the
commands in enqueue order. -/
theorem C6_orchestrator_fifo (s : OrchState) (evs : List OrchEvent) :
    (∀ c, s.pending_ssh_command = some c → process_next_docker_command s = s) ∧
    (∀ c rest, s.pending_ssh_command = none → s.pending_docker_commands = c :: rest →
      process_next_docker_command s = OrchState.mk (some c) rest) ∧
    (orch_run s evs).2 ++ orchCmds (orch_run s evs).1 =
      orchCmds s ++ enqueuedDuring s evs := by
  refine ⟨?_, ?_, ?_⟩
  · intro c hc
    simp [process_next_docker_command, hc]
  · intro c rest hnone hq
    cases s with
    | mk inflight queue =>
      simp only at hnone hq
      subst hnone
      subst hq
      rfl
  · induction evs generalizing s with
    | nil => simp [orch_run, enqueuedDuring]
    | cons e es ih =>
      simp only [orch_run, enqueuedDuring]
      have hstep := orch_step_cmds s e
      have hih := ih (orch_step s e).1
      rcases hrun : orch_run (orch_step s e).1 es with ⟨s2, d2⟩
      rw [hrun] at hih
      simp only at hih
      simp only [List.append_assoc]
      rw [hih]
      rw [← List.append_assoc, hstep, List.append_assoc]

/-- Closed instance of `C6_orchestrator_fifo` at a concrete state and
event trace. -/
theorem C6_orchestrator_fifo_witness :
    process_next_docker_command
        (OrchState.mk
          (some (PendingSshCommand.mk (("h1").data) (("docker ps -a").data)
            SshCommandType.DockerPs))
          [PendingSshCommand.mk (("h1").data) (("find x").data) SshCommandType.ListProjects]) =
      OrchState.mk
        (some (PendingSshCommand.mk (("h1").data) (("docker ps -a").data)
          SshCommandType.DockerPs))
        [PendingSshCommand.mk (("h1").data) (("find x").data) SshCommandType.ListProjects] ∧
    process_next_docker_command
        (OrchState.mk none
          [PendingSshCommand.mk (("h1").data) (("find x").data) SshCommandType.ListProjects]) =
      OrchState.mk
        (some (PendingSshCommand.mk (("h1").data) (("find x").data) SshCommandType.ListProjects))
        [] := by
  constructor
  · exact (C6_orchestrator_fifo _ []).1 _ rfl
  · exact (C6_orchestrator_fifo _ []).2.1 _ _ rfl rfl

theorem removeLoop_no_match (key : List Char) :
    ∀ (ls : List (List Char)) (acc : List (List Char)),
      (∀ line ∈ ls, lineHasEnvKey key (trimL line) = false) →
      removeLoop key ls acc = acc ++ ls := by
  intro ls
  induction ls with
  | nil => intro acc _; simp [removeLoop]
  | cons line rest ih =>
    intro acc h
    have hline := h line (List.mem_cons_self _ _)
    rw [removeLoop, if_neg (by simp [hline])]
    rw [ih (acc ++ [line]) (fun l hl => h l (List.mem_cons_of_mem _ hl))]
    simp

/-- C3 (amended): removing a key that matches no `-e KEY=` flag on any line
returns the lines of the text rejoined with `\n` — i.e. the text unchanged
except that a trailing final newline is dropped and `\r\n` endings are
normalised. -/
theorem C3_remove_absent_key (content key : List Char)
    (h : ∀ line ∈ rustLines content, lineHasEnvKey key (trimL line) = false) :
    remove_env_var content key = joinNl (rustLines content) := by
  rw [remove_env_var, removeLoop_no_match key _ [] h]
  simp

/-- Closed instance of `C3_remove_absent_key`. -/
theorem C3_remove_absent_key_witness :
    remove_env_var (("NAME=api\n-e A=1").data) (("ZZZ").data) =
      joinNl (rustLines (("NAME=api\n-e A=1").data)) :=
  C3_remove_absent_key _ _ (by decide)

/-- C3 counterexample: a script with a trailing newline and no `-e ZZZ=`
flag is not returned byte-for-byte — the trailing newline is lost. -/
theorem C3_remove_absent_key_counterexample :
    ((rustLines (("NAME=api\n-e A=1 \\\n-e B=2 \\\n-e C=3\n").data)).all
        (fun l => !lineHasEnvKey (("ZZZ").data) (trimL l))) = true ∧
    remove_env_var (("NAME=api\n-e A=1 \\\n-e B=2 \\\n-e C=3\n").data) (("ZZZ").data) ≠
      ("NAME=api\n-e A=1 \\\n-e B=2 \\\n-e C=3\n").data := by
  constructor
  · rfl
  · decide

/-- C4: at the script `docker run \ / -e X=abc\ / img` (where `X`'s bare
value `abc\` ends in a backslash glued to the line-continuation), adding the
absent key `NEW` and removing it again changes the extracted env-var set:
the backslash-stripping of `remove_env_var` turns `X`'s value from `abc\`
into `abc`. -/
theorem C4_roundtrip_env_set_bug :
    ((extract_env_vars (("docker run \\\n  -e X=abc\\\n  img").data)).all
        (fun e => e.key ≠ ("NEW").data)) = true ∧
    extract_env_vars (("docker run \\\n  -e X=abc\\\n  img").data) =
      [EnvVar.new (("X").data) (("abc\\").data)] ∧
    extract_env_vars
        (remove_env_var
          (add_env_var (("docker run \\\n  -e X=abc\\\n  img").data)
            (("NEW").data) (("1").data))
          (("NEW").data)) =
      [EnvVar.new (("X").data) (("abc").data)] ∧
    extract_env_vars
        (remove_env_var
          (add_env_var (("docker run \\\n  -e X=abc\\\n  img").data)
            (("NEW").data) (("1").data))
          (("NEW").data)) ≠
      extract_env_vars (("docker run \\\n  -e X=abc\\\n  img").data) := by
  refine ⟨rfl, rfl, rfl, ?_⟩
  intro h
  exact absurd h (by decide)

theorem occursIn_iff (pat s : List Char) :
    occursIn pat s = true ↔ ∃ u v, s = u ++ pat ++ v := by
  induction s with
  | nil =>
    simp only [occursIn, List.isEmpty_iff]
    constructor
    · intro h; exact ⟨[], [], by simp [h]⟩
    · rintro ⟨u, v, h⟩
      have : u = [] ∧ pat = [] ∧ v = [] := by simpa using h.symm
      exact this.2.1
  | cons c cs ih =>
    simp only [occursIn, Bool.or_eq_true]
    constructor
    · rintro (h | h)
      · obtain ⟨t, ht⟩ := List.isPrefixOf_iff_prefix.mp h
        exact ⟨[], t, by simp [← ht]⟩
      · obtain ⟨u, v, huv⟩ := ih.mp h
        exact ⟨c :: u, v, by simp [huv]⟩
    · rintro ⟨u, v, huv⟩
      cases u with
      | nil =>
        left
        exact List.isPrefixOf_iff_prefix.mpr ⟨v, by simpa using huv.symm⟩
      | cons d u' =>
        right
        refine ih.mpr ⟨u', v, ?_⟩
        simpa using congrArg List.tail huv

theorem infix_flatten_intersperse (sep : List Char) :
    ∀ (parts : List (List Char)) (x : List Char), x ∈ parts →
      ∃ u v, (parts.intersperse sep).flatten = u ++ x ++ v := by
  intro parts
  induction parts with
  | nil => intro x hx; simp at hx
  | cons a tl ih =>
    intro x hx
    cases tl with
    | nil =>
      simp only [List.mem_singleton] at hx
      subst hx
      exact ⟨[], [], by simp [List.intersperse]⟩
    | cons b tl' =>
      rcases List.mem_cons.mp hx with h | h
      · subst h
        exact ⟨[], sep ++ (List.intersperse sep (b :: tl')).flatten,
          by simp [List.intersperse]⟩
      · obtain ⟨u, v, huv⟩ := ih x h
        refine ⟨a ++ sep ++ u, v, ?_⟩
        simp [List.intersperse, huv]

theorem infix_joinNl :
    ∀ (ls : List (List Char)) (x : List Char), x ∈ ls →
      ∃ u v, joinNl ls = u ++ x ++ v := by
  intro ls
  induction ls with
  | nil => intro x hx; simp at hx
  | cons l tl ih =>
    intro x hx
    cases tl with
    | nil =>
      simp only [List.mem_singleton] at hx
      subst hx
      exact ⟨[], [], by simp [joinNl]⟩
    | cons m tl' =>
      rcases List.mem_cons.mp hx with h | h
      · subst h
        exact ⟨[], '\n' :: joinNl (m :: tl'), by simp [joinNl]⟩
      · obtain ⟨u, v, huv⟩ := ih x h
        refine ⟨l ++ '\n' :: u, v, ?_⟩
        simp [joinNl, huv]

/-- The claim's escape rule, one character at a time: backslash and double
quote gain a backslash, every other character (including `$`) is kept
as-is. -/
def escChar (c : Char) : List Char :=
  if c = '\\' then ['\\', '\\'] else if c = '"' then ['\\', '"'] else [c]

/-- Character-wise escaping of a whole value. -/
def escapeInner : List Char → List Char
  | [] => []
  | c :: cs => escChar c ++ escapeInner cs

theorem replaceQuote_replaceBackslash (v : List Char) :
    replaceQuote (replaceBackslash v) = escapeInner v := by
  induction v with
  | nil => rfl
  | cons c cs ih =>
    by_cases h1 : c = '\\'
    · subst h1
      simp [replaceBackslash, replaceQuote, escapeInner, escChar, ih]
    · by_cases h2 : c = '"'
      · subst h2
        simp [replaceBackslash, replaceQuote, escapeInner, escChar, ih]
      · simp [replaceBackslash, replaceQuote, escapeInner, escChar, h1, h2, ih]

theorem escapeInner_id (v : List Char) (h1 : v.contains '\\' = false)
    (h2 : v.contains '"' = false) : escapeInner v = v := by
  induction v with
  | nil => rfl
  | cons c cs ih =>
    simp only [List.contains_cons, Bool.or_eq_false_iff] at h1 h2
    have hc1 : c ≠ '\\' := by
      intro h; subst h; simp at h1
    have hc2 : c ≠ '"' := by
      intro h; subst h; simp at h2
    simp [escapeInner, escChar, hc1, hc2, ih h1.2 h2.2]

theorem occursIn_of_eq (t pre suf s : List Char) (h : s = pre ++ t ++ suf) :
    occursIn t s = true :=
  (occursIn_iff t s).mpr ⟨pre, suf, h⟩

theorem occursIn_joinNl (t x : List Char) (ls : List (List Char)) (hx : x ∈ ls)
    (ht : occursIn t x = true) : occursIn t (joinNl ls) = true := by
  obtain ⟨u, v, huv⟩ := (occursIn_iff t x).mp ht
  obtain ⟨u', v', huv'⟩ := infix_joinNl ls x hx
  exact occursIn_of_eq t (u' ++ u) (v ++ v') _ (by simp [huv', huv])

theorem occursIn_flatten_intersperse (t x sep : List Char) (parts : List (List Char))
    (hx : x ∈ parts) (ht : occursIn t x = true) :
    occursIn t ((parts.intersperse sep).flatten) = true := by
  obtain ⟨u, v, huv⟩ := (occursIn_iff t x).mp ht
  obtain ⟨u', v', huv'⟩ := infix_flatten_intersperse sep parts x hx
  exact occursIn_of_eq t (u' ++ u) (v ++ v') _ (by simp [huv', huv])

/-- C9: `escape_shell_value` always wraps the value in double quotes, with
backslash and double quote escaped character-wise (everything else,
including `$`, kept as-is); and every env var of a generated script appears
in the output as `-e KEY="VALUE"`. -/
theorem C9_escape_always_quotes :
    (∀ value : List Char,
      escape_shell_value value = '"' :: (escapeInner value ++ ['"'])) ∧
    (∀ (script : DeploymentScript), ∀ e ∈ script.env_vars,
      occursIn (("-e ").data ++ e.key ++ '=' :: '"' :: (e.value ++ ['"']))
        (generate_script script) = true) := by
  constructor
  · intro value
    rw [escape_shell_value]
    split
    · rw [replaceQuote_replaceBackslash]
    · rename_i hcond
      simp only [Bool.or_eq_true, not_or] at hcond
      rw [escapeInner_id value (by simpa using hcond.1.1.1.1.1.2)
        (by simpa using hcond.1.1.1.1.2)]
  · intro script e he
    rw [generate_script]
    simp only []
    apply occursIn_joinNl _ _ _ (List.mem_append_right _ (List.mem_cons_self _ _))
    apply occursIn_flatten_intersperse _
      (("  -e ").data ++ e.key ++ '=' :: '"' :: (e.value ++ ['"']))
    · refine List.mem_append_left _ (List.mem_append_right _ ?_)
      exact List.mem_map_of_mem _ he
    · apply occursIn_of_eq _ (("  ").data) []
      have hsplit : ("  -e ").data = ("  ").data ++ ("-e ").data := rfl
      rw [hsplit]
      simp

/-- Closed instance of `C9_escape_always_quotes`. -/
theorem C9_escape_always_quotes_witness :
    escape_shell_value (("a b").data) = '"' :: (escapeInner (("a b").data) ++ ['"']) ∧
    occursIn (("-e ").data ++ ("K").data ++ '=' :: '"' :: ((("v1").data) ++ ['"']))
      (generate_script (DeploymentScript.mk (("p").data) (("c").data) (("api").data)
        (("repo").data) [EnvVar.new (("K").data) (("v1").data)] [] none [] none [] none)) =
      true := by
  constructor
  · exact C9_escape_always_quotes.1 (("a b").data)
  · exact C9_escape_always_quotes.2
      (DeploymentScript.mk (("p").data) (("c").data) (("api").data)
        (("repo").data) [EnvVar.new (("K").data) (("v1").data)] [] none [] none [] none)
      (EnvVar.new (("K").data) (("v1").data)) (List.mem_cons_self _ _)

theorem dropWhile_append_nil {p : Char → Bool} :
    ∀ {l1 : List Char} (l2 : List Char), l1.dropWhile p = [] →
      (l1 ++ l2).dropWhile p = l2.dropWhile p := by
  intro l1
  induction l1 with
  | nil => intro l2 _; rfl
  | cons c cs ih =>
    intro l2 h
    rw [List.dropWhile] at h
    by_cases hc : p c
    · rw [hc] at h
      simp only [List.cons_append, List.dropWhile, hc]
      exact ih l2 h
    · simp only [hc] at h
      exact absurd h (by simp)

theorem dropWhile_append_cons {p : Char → Bool} :
    ∀ {l1 : List Char} (l2 : List Char) {d : Char} {r : List Char},
      l1.dropWhile p = d :: r → (l1 ++ l2).dropWhile p = d :: (r ++ l2) := by
  intro l1
  induction l1 with
  | nil => intro l2 d r h; simp [List.dropWhile] at h
  | cons c cs ih =>
    intro l2 d r h
    rw [List.dropWhile] at h
    by_cases hc : p c
    · rw [hc] at h
      simp only [List.cons_append, List.dropWhile, hc]
      exact ih l2 h
    · simp only [hc] at h
      injection h with h1 h2
      subst h1
      subst h2
      simp only [List.cons_append, List.dropWhile, hc]
      rfl

theorem isPrefixOf_append_left :
    ∀ (p l y : List Char), p.isPrefixOf (l ++ y) = true → p.length ≤ l.length →
      p.isPrefixOf l = true := by
  intro p
  induction p with
  | nil => intro l y _ _; simp [List.isPrefixOf]
  | cons a as ih =>
    intro l y h hlen
    cases l with
    | nil => simp at hlen
    | cons b bs =>
      simp only [List.cons_append, List.isPrefixOf, Bool.and_eq_true] at h ⊢
      exact ⟨h.1, ih bs y h.2 (by simpa using hlen)⟩

/-- The key `FOO` of the C1 scenario. -/
def fooL : List Char := ("FOO").data

/-- The literal `-e FOO="bar"` of the C1 scenario. -/
def markerBarL : List Char := ("-e FOO=\"bar\"").data

/-- The literal `-e FOO="baz"` (the C1 scenario after the update). -/
def markerBazL : List Char := ("-e FOO=\"baz\"").data

theorem occursIn_cons_of (p : List Char) (c : Char) (l : List Char)
    (h : occursIn p l = true) : occursIn p (c :: l) = true := by
  simp [occursIn, h]

theorem matchUpdAt_marker (B : List Char) :
    matchUpdAt fooL true 0 (markerBarL ++ B) = some ((("-e FOO=").data), B) := rfl

theorem matchUpdAt_none_of_noFoo (X B : List Char)
    (hocc : occursIn fooL X = false) (hne : X ≠ []) :
    matchUpdAt fooL true 0 (X ++ markerBarL ++ B) = none := by
  match X, hne with
  | c :: X', _ =>
  have htext : (c :: X') ++ markerBarL ++ B = c :: (X' ++ markerBarL ++ B) := by simp
  rw [htext]
  unfold matchUpdAt
  split
  case h_2 => rfl
  case h_1 x cs1 heq =>
    injection heq with h1 hrest
    subst h1
    cases X' with
    | nil =>
      exfalso
      have hm : markerBarL ++ B = '-' :: ((("e FOO=\"bar\"").data) ++ B) := rfl
      rw [List.nil_append, hm] at hrest
      injection hrest with ha _
      exact absurd ha (by decide)
    | cons d X'' =>
      have hm : (d :: X'') ++ markerBarL ++ B = d :: (X'' ++ markerBarL ++ B) := by simp
      rw [hm] at hrest
      injection hrest with h2 hrest2
      subst h2
      subst hrest2
      split
      case cons.isFalse hfalse => exact absurd rfl hfalse
      case cons.isTrue =>
        split
        case h_2 heq => exact absurd heq (by decide)
        case h_3 himp1 himp2 => exact absurd rfl himp1
        case h_1 heq =>
          show (if true = true ∧
                  (List.takeWhile isWsChar (X'' ++ markerBarL ++ B)).isEmpty = true then none
            else
              if (fooL ++ ['=']).isPrefixOf
                  (List.dropWhile isWsChar (X'' ++ markerBarL ++ B)) = true then
                match List.drop (fooL.length + 1)
                    (List.dropWhile isWsChar (X'' ++ markerBarL ++ B)) with
                | '"' :: cs4 =>
                  match List.dropWhile (fun c => decide (c ≠ '"')) cs4 with
                  | _ :: rest =>
                    some (('-' :: 'e' ::
                      (List.takeWhile isWsChar (X'' ++ markerBarL ++ B) ++ fooL ++ ['='])), rest)
                  | [] => none
                | _ => none
              else none) = none
          split_ifs with hcond hp
          · rfl
          · exfalso
            rcases hdw : X''.dropWhile isWsChar with _ | ⟨d', r⟩
            · rw [List.append_assoc, dropWhile_append_nil _ hdw] at hp
              have hred : List.dropWhile isWsChar (markerBarL ++ B) =
                  '-' :: ((("e FOO=\"bar\"").data) ++ B) := rfl
              rw [hred] at hp
              have hval : (fooL ++ ['=']).isPrefixOf
                  ('-' :: ((("e FOO=\"bar\"").data) ++ B)) = false := rfl
              rw [hval] at hp
              exact absurd hp (by simp)
            · rw [List.append_assoc, dropWhile_append_cons _ hdw] at hp
              match r, hp with
              | [], hp =>
                have hval : ∀ Z : List Char, (fooL ++ ['=']).isPrefixOf
                    (d' :: ([] ++ (markerBarL ++ Z))) = (('F' == d') && false) :=
                  fun Z => rfl
                rw [hval B] at hp
                simp at hp
              | [r1], hp =>
                have hval : ∀ Z : List Char, (fooL ++ ['=']).isPrefixOf
                    (d' :: ([r1] ++ (markerBarL ++ Z))) =
                      (('F' == d') && (('O' == r1) && false)) := fun Z => rfl
                rw [hval B] at hp
                simp at hp
              | [r1, r2], hp =>
                have hval : ∀ Z : List Char, (fooL ++ ['=']).isPrefixOf
                    (d' :: ([r1, r2] ++ (markerBarL ++ Z))) =
                      (('F' == d') && (('O' == r1) && (('O' == r2) && false))) :=
                  fun Z => rfl
                rw [hval B] at hp
                simp at hp
              | r1 :: r2 :: r3 :: r', hp =>
                have hshape : d' :: ((r1 :: r2 :: r3 :: r') ++ (markerBarL ++ B)) =
                    [d', r1, r2, r3] ++ (r' ++ (markerBarL ++ B)) := by simp
                rw [hshape] at hp
                have hpre := isPrefixOf_append_left _ _ _ hp (by simp [fooL])
                have hconc : fooL ++ ['='] = ['F', 'O', 'O', '='] := rfl
                rw [hconc] at hpre
                simp only [List.isPrefixOf, Bool.and_eq_true, beq_iff_eq] at hpre
                obtain ⟨hd, hr1, hr2, _⟩ := hpre
                have hX : occursIn fooL ('-' :: 'e' :: X'') = true := by
                  apply occursIn_cons_of
                  apply occursIn_cons_of
                  apply (occursIn_iff _ _).mpr
                  refine ⟨X''.takeWhile isWsChar, r3 :: r', ?_⟩
                  conv_lhs => rw [← List.takeWhile_append_dropWhile (p := isWsChar) (l := X'')]
                  rw [hdw, ← hd, ← hr1, ← hr2]
                  simp [fooL]
                rw [hX] at hocc
                exact absurd hocc (by simp)
          · rfl



theorem findAt_upd_marker : ∀ (A B : List Char), occursIn fooL A = false →
    findAt (matchUpdAt fooL true 0) (A ++ markerBarL ++ B) =
      some (A, ((("-e FOO=").data), B)) := by
  intro A
  induction A with
  | nil =>
    intro B _
    rw [List.nil_append]
    have hcons : markerBarL ++ B = '-' :: ((("e FOO=\"bar\"").data) ++ B) := rfl
    rw [hcons]
    unfold findAt
    rw [← hcons, matchUpdAt_marker]
  | cons c A' ih =>
    intro B hocc
    simp only [occursIn, Bool.or_eq_false_iff] at hocc
    have hshape : (c :: A') ++ markerBarL ++ B = c :: (A' ++ markerBarL ++ B) := by simp
    rw [hshape]
    unfold findAt
    have hfail : matchUpdAt fooL true 0 (c :: (A' ++ markerBarL ++ B)) = none := by
      rw [← hshape]
      exact matchUpdAt_none_of_noFoo (c :: A') B (by simp [occursIn, hocc.1, hocc.2]) (by simp)
    rw [hfail, ih B hocc.2]


theorem update_env_var_marker (A B : List Char) (hocc : occursIn fooL A = false) :
    update_env_var (A ++ markerBarL ++ B) fooL (("baz").data) = A ++ markerBazL ++ B := by
  unfold update_env_var
  rw [findAt_upd_marker A B hocc]
  show A ++ (("-e FOO=").data) ++ '"' ::
      (replaceDollar (replaceBackslash (("baz").data)) ++ '"' :: B) = A ++ markerBazL ++ B
  have hesc : replaceDollar (replaceBackslash (("baz").data)) = ("baz").data := rfl
  rw [hesc]
  simp only [markerBazL, List.append_assoc]
  rfl


/-- The last segment of a split (the split is never empty). -/
def lastSeg (ls : List (List Char)) : List Char := (ls.getLast?).getD []

theorem splitNl_prepend : ∀ (M B b0 : List Char) (TB : List (List Char)),
    (∀ c ∈ M, c ≠ '\n') → splitOnCharL ('\n') B = b0 :: TB →
    splitOnCharL ('\n') (M ++ B) = (M ++ b0) :: TB := by
  intro M
  induction M with
  | nil => intro B b0 TB _ hB; simpa using hB
  | cons d M' ih =>
    intro B b0 TB hM hB
    have hd : d ≠ '\n' := hM d (List.mem_cons_self _ _)
    have hM' : ∀ c ∈ M', c ≠ '\n' := fun c hc => hM c (List.mem_cons_of_mem _ hc)
    simp only [List.cons_append, splitOnCharL, if_neg hd, List.append_eq]
    rw [ih B b0 TB hM' hB]

theorem splitNl_append : ∀ (A Y y0 : List Char) (TY : List (List Char)),
    splitOnCharL ('\n') Y = y0 :: TY →
    splitOnCharL ('\n') (A ++ Y) =
      (splitOnCharL ('\n') A).dropLast ++
        (lastSeg (splitOnCharL ('\n') A) ++ y0) :: TY := by
  intro A
  induction A with
  | nil =>
    intro Y y0 TY hY
    simpa [splitOnCharL, lastSeg] using hY
  | cons c A' ih =>
    intro Y y0 TY hY
    rcases hA' : splitOnCharL ('\n') A' with _ | ⟨s0, ss⟩
    · exact absurd hA' (splitOnCharL_ne_nil _ _)
    by_cases hc : c = '\n'
    · subst hc
      simp only [List.cons_append, splitOnCharL, eq_self_iff_true, if_true, List.append_eq]
      rw [ih Y y0 TY hY, hA']
      rcases ss with _ | ⟨w, ws⟩
      · simp [lastSeg, List.dropLast]
      · simp [lastSeg, List.dropLast, List.getLast?_cons_cons]
    · simp only [List.cons_append, splitOnCharL, if_neg hc, List.append_eq]
      rw [ih Y y0 TY hY, hA']
      rcases ss with _ | ⟨w, ws⟩
      · simp [lastSeg, List.dropLast]
      · simp [lastSeg, List.dropLast, List.getLast?_cons_cons]


theorem stripCR_append (p y : List Char) (hy : y ≠ []) :
    stripCR (p ++ y) = p ++ stripCR y := by
  unfold stripCR
  rw [List.getLast?_append_of_ne_nil _ hy]
  rcases hL : y.getLast? with _ | c
  · exact absurd (List.getLast?_eq_none_iff.mp hL) hy
  · dsimp only
    by_cases hc : c = '\r'
    · rw [if_pos hc, if_pos hc, List.dropLast_append_of_ne_nil _ hy]
    · rw [if_neg hc, if_neg hc]

/-- How `dropLastEmpty` acts on the tail of a split. -/
def tailAdjust (T : List (List Char)) : List (List Char) :=
  match T.getLast? with
  | some [] => T.dropLast
  | _ => T

theorem dropLastEmpty_shape (X : List (List Char)) (mid : List Char) (hm : mid ≠ [])
    (T : List (List Char)) :
    dropLastEmpty (X ++ mid :: T) = X ++ mid :: tailAdjust T := by
  cases T with
  | nil =>
    unfold dropLastEmpty tailAdjust
    rw [show X ++ [mid] = X ++ [mid] from rfl, List.getLast?_concat]
    match mid, hm with
    | m :: ms, _ => rfl
  | cons t T' =>
    unfold dropLastEmpty tailAdjust
    rw [List.getLast?_append_of_ne_nil _ (by simp), List.getLast?_cons_cons]
    rcases hL : (t :: T').getLast? with _ | c
    · simp at hL
    · rcases c with _ | _
      · rw [List.dropLast_append_of_ne_nil _ (by simp)]
        simp [List.dropLast]
      · rfl


theorem stripCR_marker_ne (x y : List Char) :
    stripCR (x ++ (markerBarL ++ y)) ≠ stripCR (x ++ (markerBazL ++ y)) := by
  cases y with
  | nil =>
    simp only [List.append_nil]
    rw [stripCR_append x markerBarL (by decide), stripCR_append x markerBazL (by decide)]
    rw [show stripCR markerBarL = markerBarL from rfl,
       show stripCR markerBazL = markerBazL from rfl]
    intro h
    exact absurd (List.append_cancel_left h) (by decide)
  | cons d y' =>
    rw [show x ++ (markerBarL ++ d :: y') = (x ++ markerBarL) ++ (d :: y') by simp,
        show x ++ (markerBazL ++ d :: y') = (x ++ markerBazL) ++ (d :: y') by simp,
        stripCR_append _ _ (by simp), stripCR_append _ _ (by simp)]
    intro h
    have h1 := List.append_cancel_right h
    exact absurd (List.append_cancel_left h1) (by decide)

theorem stripCR_marker_occurs (x y : List Char) :
    occursIn fooL (stripCR (x ++ (markerBarL ++ y))) = true ∧
    occursIn markerBarL (stripCR (x ++ (markerBarL ++ y))) = true := by
  have hdec : markerBarL = (("-e ").data) ++ fooL ++ (("=\"bar\"").data) := rfl
  cases y with
  | nil =>
    simp only [List.append_nil]
    rw [stripCR_append x markerBarL (by decide),
       show stripCR markerBarL = markerBarL from rfl]
    constructor
    · refine occursIn_of_eq _ (x ++ (("-e ").data)) ((("=\"bar\"").data)) _ ?_
      rw [hdec]
      simp
    · exact occursIn_of_eq _ x [] _ (by simp)
  | cons d y' =>
    rw [show x ++ (markerBarL ++ d :: y') = (x ++ markerBarL) ++ (d :: y') by simp,
        stripCR_append _ _ (by simp)]
    constructor
    · refine occursIn_of_eq _ (x ++ (("-e ").data))
        ((("=\"bar\"").data) ++ stripCR (d :: y')) _ ?_
      rw [hdec]
      simp
    · exact occursIn_of_eq _ x (stripCR (d :: y')) _ (by simp)


/-- C1 (amended): for every text of the form `A ++ "-e FOO=\"bar\"" ++ B`
where `FOO` does not occur in `A` (the first `FOO` of the text lies inside
the literal occurrence), `update_env_var(text, FOO, baz)` changes exactly
one line: the line decompositions of input and output share `pre` and
`suf`, and only the line containing `FOO` (and the literal) differs. -/
theorem C1_update_changes_one_line (A B : List Char)
    (hA : occursIn fooL A = false) :
    ∃ pre lOld lNew suf,
      rustLines (A ++ markerBarL ++ B) = pre ++ lOld :: suf ∧
      rustLines (update_env_var (A ++ markerBarL ++ B) fooL (("baz").data)) =
        pre ++ lNew :: suf ∧
      lOld ≠ lNew ∧ occursIn fooL lOld = true ∧ occursIn markerBarL lOld = true := by
  rw [update_env_var_marker A B hA]
  rcases hB : splitOnCharL ('\n') B with _ | ⟨b0, TB⟩
  · exact absurd hB (splitOnCharL_ne_nil _ _)
  have hbar : ∀ c ∈ markerBarL, c ≠ '\n' := by decide
  have hbaz : ∀ c ∈ markerBazL, c ≠ '\n' := by decide
  have h1 := splitNl_append A (markerBarL ++ B) (markerBarL ++ b0) TB
    (splitNl_prepend markerBarL B b0 TB hbar hB)
  have h2 := splitNl_append A (markerBazL ++ B) (markerBazL ++ b0) TB
    (splitNl_prepend markerBazL B b0 TB hbaz hB)
  refine ⟨((splitOnCharL ('\n') A).dropLast).map stripCR,
    stripCR (lastSeg (splitOnCharL ('\n') A) ++ (markerBarL ++ b0)),
    stripCR (lastSeg (splitOnCharL ('\n') A) ++ (markerBazL ++ b0)),
    (tailAdjust TB).map stripCR, ?_, ?_, ?_, ?_, ?_⟩
  · unfold rustLines
    rw [List.append_assoc, h1,
      dropLastEmpty_shape _ _ (by simp [markerBarL]) TB]
    simp
  · unfold rustLines
    rw [List.append_assoc, h2,
      dropLastEmpty_shape _ _ (by simp [markerBazL]) TB]
    simp
  · exact stripCR_marker_ne _ _
  · exact (stripCR_marker_occurs _ _).1
  · exact (stripCR_marker_occurs _ _).2


/-- Closed instance of `C1_update_changes_one_line`. -/
theorem C1_update_changes_one_line_witness :
    ∃ pre lOld lNew suf,
      rustLines ((("docker run \\\n  ").data) ++ markerBarL ++
          ((" \\\n  img\n").data)) = pre ++ lOld :: suf ∧
      rustLines (update_env_var ((("docker run \\\n  ").data) ++ markerBarL ++
          ((" \\\n  img\n").data)) fooL (("baz").data)) = pre ++ lNew :: suf ∧
      lOld ≠ lNew ∧ occursIn fooL lOld = true ∧ occursIn markerBarL lOld = true :=
  C1_update_changes_one_line ((("docker run \\\n  ").data))
    (((" \\\n  img\n").data)) (by decide)

/-- C1 counterexample: in `-e FOO="a\nb"\n-e FOO="bar"` exactly one line
contains the literal `-e FOO="bar"`, yet the update collapses the
three-line text to two lines (the double-quoted value regex crosses the
newline), so more than one line changes. -/
theorem C1_update_changes_one_line_counterexample :
    ((rustLines ((("-e FOO=\"a\nb\"\n-e FOO=\"bar\"").data))).countP
        (fun l => occursIn markerBarL l)) = 1 ∧
    (rustLines ((("-e FOO=\"a\nb\"\n-e FOO=\"bar\"").data))).length = 3 ∧
    (rustLines (update_env_var ((("-e FOO=\"a\nb\"\n-e FOO=\"bar\"").data))
        fooL (("baz").data))).length = 2 := by
  refine ⟨?_, ?_, ?_⟩ <;> decide
